import Mathlib

/-
  Verification of the credit-balanced binary search tree
  (src/credit-balanced-bst.js).

  Shallow embedding notes.
  * A `CreditNode` is embedded as the inductive `Tree`; the JS `null`
    child is the constructor `nil`.  Each node stores `key`, `data`,
    `credit`, `creditSum`, `left`, `right` exactly as the source class.
  * JS numbers (credits) are embedded as an arbitrary linearly ordered
    commutative ring `γ`; theorems that quote the spec's `1e-4`
    tolerance instantiate `γ := ℚ`, and concrete witnesses use
    `γ := ℤ`, where every operation is kernel-computable.
  * The source mutates nodes in place and rebinds child pointers by
    `node.left = f(node.left)`; the embedding passes the updated subtree
    back functionally, which is observationally identical because the
    code never aliases a node in two places.
  * `Number.MAX_VALUE` in the rotation cost computation is embedded as
    `Option γ` with `none` for the missing-node sentinel: the JS loop
    `if (cost < minCost)` can never adopt `MAX_VALUE` because `minCost`
    starts at `0` and only decreases, so the sentinel and `none` are
    observationally the same.
  * `checkSumError` only writes to the console and never changes or
    returns anything, so it has no embedded counterpart.
  * The JS test `returnedNode == node` after `balance` is reference
    equality; `balance` returns the argument object itself exactly when
    no rotation was adopted, and otherwise returns one of its former
    descendants (a different object), so the test is embedded as
    "did `pickRotation` return `none`".
-/

namespace CreditBST

inductive Tree (κ δ γ : Type) where
  | nil : Tree κ δ γ
  | node (key : κ) (data : δ) (credit : γ) (creditSum : γ)
      (left : Tree κ δ γ) (right : Tree κ δ γ) : Tree κ δ γ
deriving DecidableEq

variable {κ δ γ : Type} [LinearOrder κ] [LinearOrderedCommRing γ]

open Tree

/-- JS `getCreditSum`: `node => !node ? 0 : node.creditSum`. -/
def getCreditSum : Tree κ δ γ → γ
  | nil => 0
  | node _ _ _ s _ _ => s

/-- JS `updateCreditSum`: recompute the root field
`node.creditSum = node.credit + getCreditSum(node.left) + getCreditSum(node.right)`
(no-op on `null`). -/
def updateCreditSum : Tree κ δ γ → Tree κ δ γ
  | nil => nil
  | node k d c _ l r => node k d c (c + getCreditSum l + getCreditSum r) l r

/-- JS `rotateRight(y)`: `x = y.left`, `T2 = x.right`; relink
`x.right = y; y.left = T2`; recompute `y`'s aggregate first, then `x`'s.
The source faults when `y.left` is `null`; the callers only invoke it
with a left child present, and the embedding returns the input
unchanged there. -/
def rotateRight : Tree κ δ γ → Tree κ δ γ
  | node k d c s (node lk ld lc ls ll lr) r =>
      updateCreditSum (node lk ld lc ls ll (updateCreditSum (node k d c s lr r)))
  | t => t

/-- JS `rotateLeft(x)`: `y = x.right`, `T2 = y.left`; relink
`y.left = x; x.right = T2`; recompute `x`'s aggregate first, then `y`'s. -/
def rotateLeft : Tree κ δ γ → Tree κ δ γ
  | node k d c s l (node rk rd rc rs rl rr) =>
      updateCreditSum (node rk rd rc rs (updateCreditSum (node k d c s l rl)) rr)
  | t => t

/-- The four rotation candidates scanned by `balance`, in the fixed
source scan order RR, RL, LL, LR. -/
inductive Rot where
  | RR | RL | LL | LR
deriving DecidableEq

/-- JS `calculateCost('RR')`: `-R.credit - getCreditSum(RR) + O.credit +
getCreditSum(L)`; `Number.MAX_VALUE` (`none`) when `R` is missing. -/
def costRR : Tree κ δ γ → Option γ
  | node _ _ c _ l (node _ _ rc _ _ rr) => some (-rc - getCreditSum rr + c + getCreditSum l)
  | _ => none

/-- JS `calculateCost('RL')`: `-2*RL.credit + O.credit + getCreditSum(L)
- getCreditSum(RLL) - getCreditSum(RLR)`; `none` when `R` or `RL` is
missing. -/
def costRL : Tree κ δ γ → Option γ
  | node _ _ c _ l (node _ _ _ _ (node _ _ rlc _ rll rlr) _) =>
      some (-(2 * rlc) + c + getCreditSum l - getCreditSum rll - getCreditSum rlr)
  | _ => none

/-- JS `calculateCost('LL')`: `-L.credit - getCreditSum(LL) + O.credit +
getCreditSum(R)`; `none` when `L` is missing. -/
def costLL : Tree κ δ γ → Option γ
  | node _ _ c _ (node _ _ lc _ ll _) r => some (-lc - getCreditSum ll + c + getCreditSum r)
  | _ => none

/-- JS `calculateCost('LR')`: `-2*getCreditSum(LR) + O.credit -
getCreditSum(LRL) - getCreditSum(LRR) + getCreditSum(R)`; `none` when
`L` or `LR` is missing. -/
def costLR : Tree κ δ γ → Option γ
  | node _ _ c _ (node _ _ _ _ _ (node _ _ _ lrs lrl lrr)) r =>
      some (-(2 * lrs) + c - getCreditSum lrl - getCreditSum lrr + getCreditSum r)
  | _ => none

/-- One step of the JS selection loop `if (cost < minCost) { minCost =
cost; bestRotation = rotation }`; a `none` cost is `Number.MAX_VALUE`,
which is never below `minCost ≤ 0`. -/
def selStep (acc : Option Rot × γ) (cand : Rot × Option γ) : Option Rot × γ :=
  match cand.2 with
  | none => acc
  | some c => if c < acc.2 then (some cand.1, c) else acc

/-- The JS selection loop over `Object.entries(costs)` (insertion order
RR, RL, LL, LR), starting from `bestRotation = null, minCost = 0`. -/
def pickRotation (t : Tree κ δ γ) : Option Rot :=
  (selStep (selStep (selStep (selStep (none, 0) (Rot.RR, costRR t))
    (Rot.RL, costRL t)) (Rot.LL, costLL t)) (Rot.LR, costLR t)).1

/-- The `switch (bestRotation)` application block of JS `balance`. -/
def applyRotation : Rot → Tree κ δ γ → Tree κ δ γ
  | Rot.RR, t => rotateLeft t
  | Rot.RL, node k d c s l r => rotateLeft (node k d c s l (rotateRight r))
  | Rot.LL, t => rotateRight t
  | Rot.LR, node k d c s l r => rotateRight (node k d c s (rotateLeft l) r)
  | _, nil => nil

/-- JS `balance`: pick the best strictly-improving rotation and apply
it; return the subtree unchanged when none was adopted. -/
def balance (t : Tree κ δ γ) : Tree κ δ γ :=
  match pickRotation t with
  | none => t
  | some rot => applyRotation rot t

/-- The common mutator tail
`const returnedNode = balance(node); if (returnedNode == node)
updateCreditSum(node); return returnedNode`: when no rotation was
adopted `balance` returns the same object and the aggregate is
refreshed explicitly, otherwise the rotation already refreshed it. -/
def balApply (t : Tree κ δ γ) : Tree κ δ γ :=
  match pickRotation t with
  | none => updateCreditSum t
  | some rot => applyRotation rot t

/-- JS `insertNode`: create a leaf (`creditSum` initialised to
`credit`), or descend left on `key < node.key` and right otherwise
(duplicates go right), then rebalance on unwind. -/
def insertNode : Tree κ δ γ → κ → δ → γ → Tree κ δ γ
  | nil, k, d, c => node k d c c nil nil
  | node key dt cr s l r, k, d, c =>
      if k < key then balApply (node key dt cr s (insertNode l k d c) r)
      else balApply (node key dt cr s l (insertNode r k d c))

/-- The `while (minLargerNode.left)` loop of JS `deleteNode`: the
leftmost node of a subtree (`nil` for an empty subtree). -/
def findMinNode : Tree κ δ γ → Tree κ δ γ
  | nil => nil
  | node k d c s nil r => node k d c s nil r
  | node _ _ _ _ (node lk ld lc ls ll lr) _ => findMinNode (node lk ld lc ls ll lr)

/-- JS `deleteNode`: descend by comparison; on a key match splice out a
one-child node (early return, no rebalance at this level), else copy
the in-order successor's key and data onto the node (credit untouched)
and delete the successor's key from the right subtree; on unwind
refresh the aggregate, rebalance, and refresh again when no rotation
fired. -/
def deleteNode : Tree κ δ γ → κ → Tree κ δ γ
  | nil, _ => nil
  | node key dt cr s l r, k =>
      if k < key then balApply (updateCreditSum (node key dt cr s (deleteNode l k) r))
      else if key < k then balApply (updateCreditSum (node key dt cr s l (deleteNode r k)))
      else
        match l, r with
        | nil, _ => r
        | _, nil => l
        | node lk ld lc ls ll lr, node rk rd rc rs rl rr =>
            match findMinNode (node rk rd rc rs rl rr) with
            | nil => nil  -- unreachable: the leftmost node of a nonempty subtree exists
            | node mk md _ _ _ _ =>
                balApply (updateCreditSum (node mk md cr s (node lk ld lc ls ll lr)
                  (deleteNode (node rk rd rc rs rl rr) mk)))

/-- JS `updateCreditRecursive`, returning the pair
`{ newNode, difference }`.  The `null` base case in the source is
`return 0`; the caller then reads `.newNode` and `.difference` off the
number `0`, getting `undefined`: the child slot is overwritten with
`undefined` (observationally still an empty subtree) and the difference
is propagated unused, so the base case is embedded as `(nil, 0)`. -/
def updateCreditRecursive : Tree κ δ γ → κ → γ → Tree κ δ γ × γ
  | nil, _, _ => (nil, 0)
  | node key dt cr s l r, k, c =>
      if key = k then
        (updateCreditSum (node key dt c s l r), c - cr)
      else if k < key then
        let p := updateCreditRecursive l k c
        (balApply (node key dt cr s p.1 r), p.2)
      else
        let p := updateCreditRecursive r k c
        (balApply (node key dt cr s l p.1), p.2)

/-- Left child accessor (`nil` on an empty tree). -/
def Tree.leftT : Tree κ δ γ → Tree κ δ γ
  | nil => nil
  | node _ _ _ _ l _ => l

/-- Right child accessor (`nil` on an empty tree). -/
def Tree.rightT : Tree κ δ γ → Tree κ δ γ
  | nil => nil
  | node _ _ _ _ _ r => r

/-- JS method `updateCreditByKey(key, newCredit)`: it calls
`updateCreditRecursive(this.root, key, newCredit)` but, unlike `insert`
and `delete`, never reassigns `this.root` to the returned node.  The
root pointer therefore keeps the original root object: in-place
mutations below it stay visible, but when `balance` adopts a rotation
at the top level the returned subtree root is dropped and the old root
object survives as the left child (after `rotateLeft`, cases RR and RL)
or the right child (after `rotateRight`, cases LL and LR) of the
discarded result. -/
def updateCreditByKey (t : Tree κ δ γ) (k : κ) (c : γ) : Tree κ δ γ :=
  match t with
  | nil => nil
  | node key dt cr s l r =>
      if key = k then (updateCreditRecursive (node key dt cr s l r) k c).1
      else
        let t' := if k < key then node key dt cr s (updateCreditRecursive l k c).1 r
                  else node key dt cr s l (updateCreditRecursive r k c).1
        match pickRotation t' with
        | none => updateCreditSum t'
        | some Rot.RR => (applyRotation Rot.RR t').leftT
        | some Rot.RL => (applyRotation Rot.RL t').leftT
        | some Rot.LL => (applyRotation Rot.LL t').rightT
        | some Rot.LR => (applyRotation Rot.LR t').rightT

/-- JS `findNodeByCreditHelper`: navigate by the left subtree's
aggregate; returns the found node (`none` on an empty subtree). -/
def findNodeByCreditHelper : Tree κ δ γ → γ → Option (Tree κ δ γ)
  | nil, _ => none
  | node key dt cr s l r, q =>
      let leftCreditSum := getCreditSum l
      if q < leftCreditSum then findNodeByCreditHelper l q
      else if q < leftCreditSum + cr then some (node key dt cr s l r)
      else findNodeByCreditHelper r (q - leftCreditSum - cr)

/-- JS `findNodesByKeyHelper`: comparison-guided descent; on an equal
key collect left results, the node itself, then right results. -/
def findNodesByKeyHelper : Tree κ δ γ → κ → List (Tree κ δ γ)
  | nil, _ => []
  | node key dt cr s l r, k =>
      if k < key then findNodesByKeyHelper l k
      else if key < k then findNodesByKeyHelper r k
      else findNodesByKeyHelper l k ++ [node key dt cr s l r] ++ findNodesByKeyHelper r k

/-- JS `findNodesByPrefixHelper` (string keys, embedded as `List Char`):
if the prefix is empty or the key starts with it, push the node and
recurse into both children; else recurse into the single side selected
by comparing the prefix with the key.  The accumulator order
(node, left results, right results) is returned as a list. -/
def findNodesByPrefixHelper {δ γ : Type} [LinearOrderedCommRing γ] :
    Tree (List Char) δ γ → List Char → List (Tree (List Char) δ γ)
  | nil, _ => []
  | node key dt cr s l r, p =>
      if p = [] ∨ p.isPrefixOf key then
        node key dt cr s l r :: (findNodesByPrefixHelper l p ++ findNodesByPrefixHelper r p)
      else if p < key then findNodesByPrefixHelper l p
      else findNodesByPrefixHelper r p

/-- JS class method `getTotalCredit()`; the structure's state is its
root subtree. -/
def getTotalCredit (t : Tree κ δ γ) : γ := getCreditSum t

/-- JS class method `isEmpty()`. -/
def isEmpty (t : Tree κ δ γ) : Bool :=
  match t with
  | nil => true
  | _ => false

/-- JS class method `insert` (reassigns the root). -/
def insert (t : Tree κ δ γ) (k : κ) (d : δ) (c : γ) : Tree κ δ γ :=
  insertNode t k d c

/-- JS class method `delete` (reassigns the root). -/
def delete (t : Tree κ δ γ) (k : κ) : Tree κ δ γ :=
  deleteNode t k

/-- JS class method `findNodeByCredit`. -/
def findNodeByCredit (t : Tree κ δ γ) (q : γ) : Option (Tree κ δ γ) :=
  findNodeByCreditHelper t q

/-- JS class method `findNodesByKey`. -/
def findNodesByKey (t : Tree κ δ γ) (k : κ) : List (Tree κ δ γ) :=
  findNodesByKeyHelper t k

/-- JS class method `findNodesByPrefix` (default argument `""`). -/
def findNodesByPrefix {δ γ : Type} [LinearOrderedCommRing γ]
    (t : Tree (List Char) δ γ) (p : List Char) : List (Tree (List Char) δ γ) :=
  findNodesByPrefixHelper t p

/-- In-order list of the nodes of a tree; each element is the node
together with the subtree it owns (the embedding of the JS node
object). -/
def inorderNodes : Tree κ δ γ → List (Tree κ δ γ)
  | nil => []
  | node k d c s l r => inorderNodes l ++ [node k d c s l r] ++ inorderNodes r

/-- The persistent fields of a single node: key, data and credit
(`creditSum` is derived state, child pointers are structure). -/
def kdcL : Tree κ δ γ → List (κ × δ × γ)
  | nil => []
  | node k d c _ _ _ => [(k, d, c)]

/-- In-order list of `(key, data, credit)` field triples. -/
def inorderKDC : Tree κ δ γ → List (κ × δ × γ)
  | nil => []
  | node k d c _ l r => inorderKDC l ++ [(k, d, c)] ++ inorderKDC r

/-- In-order list of keys. -/
def inorderKeys (t : Tree κ δ γ) : List κ :=
  (inorderKDC t).map (fun x => x.1)

/-- The central aggregate invariant, exact form: at every node the
stored `creditSum` equals `credit + creditSum(left) + creditSum(right)`
(an absent child contributing 0). -/
def validS : Tree κ δ γ → Prop
  | nil => True
  | node _ _ c s l r => s = c + getCreditSum l + getCreditSum r ∧ validS l ∧ validS r

instance instDecValidS [DecidableEq γ] : (t : Tree κ δ γ) → Decidable (validS t)
  | nil => Decidable.isTrue trivial
  | node _ _ c s l r =>
      have hl : Decidable (validS l) := instDecValidS l
      have hr : Decidable (validS r) := instDecValidS r
      inferInstanceAs (Decidable (s = c + getCreditSum l + getCreditSum r ∧ validS l ∧ validS r))

/-- The aggregate invariant in the spec's tolerance form, over `ℚ`:
at every node `|creditSum - (credit + creditSum(left) +
creditSum(right))| ≤ 1e-4`. -/
def approxValidQ {κ δ : Type} : Tree κ δ ℚ → Prop
  | nil => True
  | node _ _ c s l r =>
      |s - (c + getCreditSum l + getCreditSum r)| ≤ 1 / 10000 ∧ approxValidQ l ∧ approxValidQ r

/-- Search-tree ordering (non-strict, since duplicate keys are allowed
and rotations may move them to either side): at every node the keys of
the left subtree are `≤` the node's key and the keys of the right
subtree are `≥` it. -/
def orderedT : Tree κ δ γ → Prop
  | nil => True
  | node k _ _ _ l r =>
      (∀ x ∈ inorderKeys l, x ≤ k) ∧ (∀ x ∈ inorderKeys r, k ≤ x) ∧ orderedT l ∧ orderedT r

instance instDecOrderedT : (t : Tree κ δ γ) → Decidable (orderedT t)
  | nil => Decidable.isTrue trivial
  | node k _ _ _ l r =>
      have hl : Decidable (orderedT l) := instDecOrderedT l
      have hr : Decidable (orderedT r) := instDecOrderedT r
      inferInstanceAs (Decidable ((∀ x ∈ inorderKeys l, x ≤ k) ∧ (∀ x ∈ inorderKeys r, k ≤ x) ∧ orderedT l ∧ orderedT r))

/-- Balance stability: at every node the rebalancing policy adopts no
rotation (all four candidate costs are `≥ 0` or excluded). -/
def stableS : Tree κ δ γ → Prop
  | nil => True
  | node k d c s l r => pickRotation (node k d c s l r) = none ∧ stableS l ∧ stableS r

instance instDecStableS [DecidableEq γ] : (t : Tree κ δ γ) → Decidable (stableS t)
  | nil => Decidable.isTrue trivial
  | node k d c s l r =>
      have hl : Decidable (stableS l) := instDecStableS l
      have hr : Decidable (stableS r) := instDecStableS r
      inferInstanceAs (Decidable (pickRotation (node k d c s l r) = none ∧ stableS l ∧ stableS r))

/-- Spec-side node credit (`0` for an absent node; the spec's cost table
only reads the credit of nodes it requires to exist). -/
def creditD : Tree κ δ γ → γ
  | nil => 0
  | node _ _ c _ _ _ => c

/-- Whether a subtree slot is empty (a required node is missing). -/
def isNil : Tree κ δ γ → Bool
  | nil => true
  | node _ _ _ _ _ _ => false

/-- Spec cost table, candidate RR (requires `R`):
`-credit(R) - creditSum(RR) + credit(O) + creditSum(L)`. -/
def specCostRR (t : Tree κ δ γ) : Option γ :=
  if isNil t.rightT then none
  else some (-creditD t.rightT - getCreditSum t.rightT.rightT + creditD t + getCreditSum t.leftT)

/-- Spec cost table, candidate RL (requires `R`, `RL`):
`-2·credit(RL) + credit(O) + creditSum(L) - creditSum(RLL) - creditSum(RLR)`. -/
def specCostRL (t : Tree κ δ γ) : Option γ :=
  if isNil t.rightT ∨ isNil t.rightT.leftT then none
  else some (-(2 * creditD t.rightT.leftT) + creditD t + getCreditSum t.leftT
    - getCreditSum t.rightT.leftT.leftT - getCreditSum t.rightT.leftT.rightT)

/-- Spec cost table, candidate LL (requires `L`):
`-credit(L) - creditSum(LL) + credit(O) + creditSum(R)`. -/
def specCostLL (t : Tree κ δ γ) : Option γ :=
  if isNil t.leftT then none
  else some (-creditD t.leftT - getCreditSum t.leftT.leftT + creditD t + getCreditSum t.rightT)

/-- Spec cost table, candidate LR (requires `L`, `LR`):
`-2·creditSum(LR) + credit(O) - creditSum(LRL) - creditSum(LRR) + creditSum(R)`. -/
def specCostLR (t : Tree κ δ γ) : Option γ :=
  if isNil t.leftT ∨ isNil t.leftT.rightT then none
  else some (-(2 * getCreditSum t.leftT.rightT) + creditD t
    - getCreditSum t.leftT.rightT.leftT - getCreditSum t.leftT.rightT.rightT + getCreditSum t.rightT)

/-- A candidate cost is strictly negative (`+infinity` is not). -/
def negCost : Option γ → Prop
  | none => False
  | some x => x < 0

instance : (a : Option γ) → Decidable (negCost a)
  | none => Decidable.isFalse id
  | some x => inferInstanceAs (Decidable (x < 0))

/-- Cost comparison with `+infinity` (`none`) as the top element,
non-strict. -/
def infLE : Option γ → Option γ → Prop
  | none, none => True
  | none, some _ => False
  | some _, none => True
  | some x, some y => x ≤ y

instance : (a b : Option γ) → Decidable (infLE a b)
  | none, none => Decidable.isTrue trivial
  | none, some _ => Decidable.isFalse id
  | some _, none => Decidable.isTrue trivial
  | some x, some y => inferInstanceAs (Decidable (x ≤ y))

/-- Cost comparison with `+infinity` (`none`) as the top element,
strict. -/
def infLT : Option γ → Option γ → Prop
  | none, _ => False
  | some _, none => True
  | some x, some y => x < y

instance : (a b : Option γ) → Decidable (infLT a b)
  | none, _ => Decidable.isFalse id
  | some _, none => Decidable.isTrue trivial
  | some x, some y => inferInstanceAs (Decidable (x < y))

/-- The spec's selection rule, stated as the spec words it: scanning
RR, RL, LL, LR in that fixed order and adopting only a strict
improvement over the current best (baseline 0) means the winner is the
earliest candidate that is strictly negative, strictly below every
earlier candidate and at most every later candidate. -/
def specSelect (c1 c2 c3 c4 : Option γ) : Option Rot :=
  if negCost c1 ∧ infLE c1 c2 ∧ infLE c1 c3 ∧ infLE c1 c4 then some Rot.RR
  else if negCost c2 ∧ infLT c2 c1 ∧ infLE c2 c3 ∧ infLE c2 c4 then some Rot.RL
  else if negCost c3 ∧ infLT c3 c1 ∧ infLT c3 c2 ∧ infLE c3 c4 then some Rot.LL
  else if negCost c4 ∧ infLT c4 c1 ∧ infLT c4 c2 ∧ infLT c4 c3 then some Rot.LR
  else none

/-- The rebalancing step as §4.3 of the spec describes it: compute the
four candidate costs from the cost table, select per the scan rule, and
apply the winning single or double rotation (none when no candidate is
strictly negative). -/
def specBalance (t : Tree κ δ γ) : Tree κ δ γ :=
  match t with
  | nil => nil
  | node k d c s l r =>
      match specSelect (specCostRR (node k d c s l r)) (specCostRL (node k d c s l r))
          (specCostLL (node k d c s l r)) (specCostLR (node k d c s l r)) with
      | none => node k d c s l r
      | some Rot.RR => rotateLeft (node k d c s l r)
      | some Rot.RL => rotateLeft (node k d c s l (rotateRight r))
      | some Rot.LL => rotateRight (node k d c s l r)
      | some Rot.LR => rotateRight (node k d c s (rotateLeft l) r)

/-- State-threaded version of `findNodeByCreditHelper`: every recursive
call returns the subtree as left behind on the JS heap next to its
result; the helper contains no field assignment, so each node is
rebuilt from its own fields and the returned children. -/
def findNodeByCreditHelperS : Tree κ δ γ → γ → Option (Tree κ δ γ) × Tree κ δ γ
  | nil, _ => (none, nil)
  | node key dt cr s l r, q =>
      let leftCreditSum := getCreditSum l
      if q < leftCreditSum then
        let p := findNodeByCreditHelperS l q
        (p.1, node key dt cr s p.2 r)
      else if q < leftCreditSum + cr then
        (some (node key dt cr s l r), node key dt cr s l r)
      else
        let p := findNodeByCreditHelperS r (q - leftCreditSum - cr)
        (p.1, node key dt cr s l p.2)

/-- State-threaded version of `findNodesByKeyHelper` (no field
assignment in the source). -/
def findNodesByKeyHelperS : Tree κ δ γ → κ → List (Tree κ δ γ) × Tree κ δ γ
  | nil, _ => ([], nil)
  | node key dt cr s l r, k =>
      if k < key then
        let p := findNodesByKeyHelperS l k
        (p.1, node key dt cr s p.2 r)
      else if key < k then
        let p := findNodesByKeyHelperS r k
        (p.1, node key dt cr s l p.2)
      else
        let p := findNodesByKeyHelperS l k
        let q := findNodesByKeyHelperS r k
        (p.1 ++ [node key dt cr s l r] ++ q.1, node key dt cr s p.2 q.2)

/-- State-threaded version of `findNodesByPrefixHelper` (the source
only pushes onto the results array, never assigns node fields). -/
def findNodesByPrefixHelperS {δ γ : Type} [LinearOrderedCommRing γ] :
    Tree (List Char) δ γ → List Char → List (Tree (List Char) δ γ) × Tree (List Char) δ γ
  | nil, _ => ([], nil)
  | node key dt cr s l r, p =>
      if p = [] ∨ p.isPrefixOf key then
        let a := findNodesByPrefixHelperS l p
        let b := findNodesByPrefixHelperS r p
        (node key dt cr s l r :: (a.1 ++ b.1), node key dt cr s a.2 b.2)
      else if p < key then
        let a := findNodesByPrefixHelperS l p
        (a.1, node key dt cr s a.2 r)
      else
        let b := findNodesByPrefixHelperS r p
        (b.1, node key dt cr s l b.2)

/-- In-order list of node credits (the enumeration the spec's prefix
sums run over). -/
def creditList (t : Tree κ δ γ) : List γ := (inorderNodes t).map creditD

/-- Running prefix sum of credits over the in-order enumeration. -/
def prefixCredit (t : Tree κ δ γ) (i : ℕ) : γ := ((creditList t).take i).sum

/-- Node-level match predicate of the JS prefix query: does the node's
key start with the prefix. -/
def matchesPrefix {δ γ : Type} (p : List Char) : Tree (List Char) δ γ → Bool
  | Tree.nil => false
  | Tree.node k _ _ _ _ _ => p.isPrefixOf k

/-- A public mutator call on the structure. -/
inductive Op (κ δ γ : Type) where
  | ins (k : κ) (d : δ) (c : γ)
  | del (k : κ)
  | upd (k : κ) (c : γ)

/-- Effect of one public mutator on the root. -/
def applyOp (t : Tree κ δ γ) : Op κ δ γ → Tree κ δ γ
  | Op.ins k d c => insert t k d c
  | Op.del k => delete t k
  | Op.upd k c => updateCreditByKey t k c

/-- State of the structure after a sequence of public mutators applied
to the initially empty structure (`this.root = null`). -/
def applyOps (ops : List (Op κ δ γ)) : Tree κ δ γ :=
  ops.foldl applyOp nil

end CreditBST
namespace CreditBST
open Tree

variable {κ δ γ : Type} [LinearOrder κ] [LinearOrderedCommRing γ]

theorem inorderKDC_updateCreditSum (t : Tree κ δ γ) :
    inorderKDC (updateCreditSum t) = inorderKDC t := by
  cases t <;> rfl

theorem getCreditSum_updateCreditSum_node (k : κ) (d : δ) (c s : γ) (l r : Tree κ δ γ) :
    getCreditSum (updateCreditSum (node k d c s l r)) = c + getCreditSum l + getCreditSum r := rfl

theorem inorderKDC_rotateLeft (t : Tree κ δ γ) :
    inorderKDC (rotateLeft t) = inorderKDC t := by
  rcases t with _ | ⟨k, d, c, s, l, r⟩
  · rfl
  · rcases r with _ | ⟨rk, rd, rc, rs, rl, rr⟩
    · rfl
    · simp [rotateLeft, updateCreditSum, inorderKDC]

theorem inorderKDC_rotateRight (t : Tree κ δ γ) :
    inorderKDC (rotateRight t) = inorderKDC t := by
  rcases t with _ | ⟨k, d, c, s, l, r⟩
  · rfl
  · rcases l with _ | ⟨lk, ld, lc, ls, ll, lr⟩
    · rfl
    · simp [rotateRight, updateCreditSum, inorderKDC]

theorem inorderKDC_applyRotation (rot : Rot) (t : Tree κ δ γ) :
    inorderKDC (applyRotation rot t) = inorderKDC t := by
  cases rot <;> rcases t with _ | ⟨k, d, c, s, l, r⟩ <;>
    simp [applyRotation, inorderKDC_rotateLeft, inorderKDC_rotateRight, inorderKDC]

theorem inorderKDC_balApply (t : Tree κ δ γ) :
    inorderKDC (balApply t) = inorderKDC t := by
  unfold balApply
  split
  · exact inorderKDC_updateCreditSum t
  · exact inorderKDC_applyRotation _ t

theorem inorderKDC_balance (t : Tree κ δ γ) :
    inorderKDC (balance t) = inorderKDC t := by
  unfold balance
  split
  · rfl
  · exact inorderKDC_applyRotation _ t

theorem inorderKeys_node (k : κ) (d : δ) (c s : γ) (l r : Tree κ δ γ) :
    inorderKeys (node k d c s l r) = inorderKeys l ++ k :: inorderKeys r := by
  simp [inorderKeys, inorderKDC]

theorem inorderKeys_balApply (t : Tree κ δ γ) :
    inorderKeys (balApply t) = inorderKeys t := by
  simp [inorderKeys, inorderKDC_balApply]

theorem orderedT_iff_sorted : ∀ t : Tree κ δ γ, orderedT t ↔ (inorderKeys t).Sorted (· ≤ ·)
  | nil => by simp [orderedT, inorderKeys, inorderKDC]
  | node k d c s l r => by
      have ihl := orderedT_iff_sorted l
      have ihr := orderedT_iff_sorted r
      rw [inorderKeys_node]
      constructor
      · rintro ⟨h1, h2, h3, h4⟩
        rw [List.Sorted, List.pairwise_append]
        refine ⟨(ihl.mp h3), ?_, ?_⟩
        · rw [List.pairwise_cons]
          exact ⟨h2, ihr.mp h4⟩
        · intro a ha b hb
          rcases List.mem_cons.mp hb with rfl | hb
          · exact h1 a ha
          · exact le_trans (h1 a ha) (h2 b hb)
      · intro h
        rw [List.Sorted, List.pairwise_append, List.pairwise_cons] at h
        obtain ⟨hsl, ⟨h2, hsr⟩, hx⟩ := h
        exact ⟨fun a ha => hx a ha k (List.mem_cons_self k _),
          h2, ihl.mpr hsl, ihr.mpr hsr⟩

end CreditBST

namespace CreditBST
open Tree

variable {κ δ γ : Type} [LinearOrder κ] [LinearOrderedCommRing γ]

set_option linter.unusedSectionVars false

set_option maxHeartbeats 2000000 in
theorem selSteps_eq_specSelect (c1 c2 c3 c4 : Option γ) :
    (selStep (selStep (selStep (selStep (none, 0) (Rot.RR, c1)) (Rot.RL, c2))
      (Rot.LL, c3)) (Rot.LR, c4)).1 = specSelect c1 c2 c3 c4 := by
  rcases c1 with _ | x1 <;> rcases c2 with _ | x2 <;> rcases c3 with _ | x3 <;>
    rcases c4 with _ | x4 <;>
      simp only [selStep, specSelect, negCost, infLE, infLT, apply_ite Prod.fst,
        apply_ite Prod.snd, and_true, true_and, and_false, false_and, if_false,
        if_true, ite_true, ite_false, false_and] <;>
      split_ifs <;> simp_all <;>
        first
          | linarith
          | (rename_i himp
             first
               | linarith [himp (by linarith)]
               | linarith [himp (by linarith) (by linarith)])

theorem pickRotation_eq_specSelect (t : Tree κ δ γ) :
    pickRotation t = specSelect (costRR t) (costRL t) (costLL t) (costLR t) :=
  selSteps_eq_specSelect _ _ _ _

theorem specCostRR_eq (t : Tree κ δ γ) : specCostRR t = costRR t := by
  rcases t with _ | ⟨k, d, c, s, l, r⟩
  · rfl
  · rcases r with _ | ⟨rk, rd, rc, rs, rl, rr⟩ <;>
      simp [specCostRR, costRR, isNil, Tree.leftT, Tree.rightT, creditD]

theorem specCostRL_eq (t : Tree κ δ γ) : specCostRL t = costRL t := by
  rcases t with _ | ⟨k, d, c, s, l, r⟩
  · rfl
  · rcases r with _ | ⟨rk, rd, rc, rs, rl, rr⟩
    · rfl
    · rcases rl with _ | ⟨a, b, e, f, g, h⟩ <;>
        simp [specCostRL, costRL, isNil, Tree.leftT, Tree.rightT, creditD]

theorem specCostLL_eq (t : Tree κ δ γ) : specCostLL t = costLL t := by
  rcases t with _ | ⟨k, d, c, s, l, r⟩
  · rfl
  · rcases l with _ | ⟨lk, ld, lc, ls, ll, lr⟩ <;>
      simp [specCostLL, costLL, isNil, Tree.leftT, Tree.rightT, creditD]

theorem specCostLR_eq (t : Tree κ δ γ) : specCostLR t = costLR t := by
  rcases t with _ | ⟨k, d, c, s, l, r⟩
  · rfl
  · rcases l with _ | ⟨lk, ld, lc, ls, ll, lr⟩
    · rfl
    · rcases lr with _ | ⟨a, b, e, f, g, h⟩ <;>
        simp [specCostLR, costLR, isNil, Tree.leftT, Tree.rightT, creditD, getCreditSum]

theorem costRR_some_shape {t : Tree κ δ γ} {x : γ} (h : costRR t = some x) :
    ∃ k d c s l rk rd rc rs rl rr, t = node k d c s l (node rk rd rc rs rl rr) := by
  rcases t with _ | ⟨k, d, c, s, l, r⟩
  · exact absurd h (by simp [costRR])
  · rcases r with _ | ⟨rk, rd, rc, rs, rl, rr⟩
    · exact absurd h (by simp [costRR])
    · exact ⟨k, d, c, s, l, rk, rd, rc, rs, rl, rr, rfl⟩

theorem costLL_some_shape {t : Tree κ δ γ} {x : γ} (h : costLL t = some x) :
    ∃ k d c s lk ld lc ls ll lr r, t = node k d c s (node lk ld lc ls ll lr) r := by
  rcases t with _ | ⟨k, d, c, s, l, r⟩
  · exact absurd h (by simp [costLL])
  · rcases l with _ | ⟨lk, ld, lc, ls, ll, lr⟩
    · exact absurd h (by simp [costLL])
    · exact ⟨k, d, c, s, lk, ld, lc, ls, ll, lr, r, rfl⟩

theorem costRL_some_shape {t : Tree κ δ γ} {x : γ} (h : costRL t = some x) :
    ∃ k d c s l rk rd rc rs a b e f g i rr,
      t = node k d c s l (node rk rd rc rs (node a b e f g i) rr) := by
  rcases t with _ | ⟨k, d, c, s, l, r⟩
  · exact absurd h (by simp [costRL])
  · rcases r with _ | ⟨rk, rd, rc, rs, rl, rr⟩
    · exact absurd h (by simp [costRL])
    · rcases rl with _ | ⟨a, b, e, f, g, i⟩
      · exact absurd h (by simp [costRL])
      · exact ⟨k, d, c, s, l, rk, rd, rc, rs, a, b, e, f, g, i, rr, rfl⟩

theorem costLR_some_shape {t : Tree κ δ γ} {x : γ} (h : costLR t = some x) :
    ∃ k d c s lk ld lc ls ll a b e f g i r,
      t = node k d c s (node lk ld lc ls ll (node a b e f g i)) r := by
  rcases t with _ | ⟨k, d, c, s, l, r⟩
  · exact absurd h (by simp [costLR])
  · rcases l with _ | ⟨lk, ld, lc, ls, ll, lr⟩
    · exact absurd h (by simp [costLR])
    · rcases lr with _ | ⟨a, b, e, f, g, i⟩
      · exact absurd h (by simp [costLR])
      · exact ⟨k, d, c, s, lk, ld, lc, ls, ll, a, b, e, f, g, i, r, rfl⟩

theorem pickRotation_RR_shape {t : Tree κ δ γ} (h : pickRotation t = some Rot.RR) :
    ∃ x, costRR t = some x := by
  rw [pickRotation_eq_specSelect] at h
  unfold specSelect at h
  split_ifs at h with h1 h2 h3 h4 <;> simp_all
  rcases hc : costRR t with _ | x
  · rw [hc] at h1; exact absurd h1.1 id
  · exact ⟨x, rfl⟩

theorem pickRotation_RL_shape {t : Tree κ δ γ} (h : pickRotation t = some Rot.RL) :
    ∃ x, costRL t = some x := by
  rw [pickRotation_eq_specSelect] at h
  unfold specSelect at h
  split_ifs at h with h1 h2 h3 h4 <;> simp_all
  rcases hc : costRL t with _ | x
  · rw [hc] at h2; exact absurd h2.1 id
  · exact ⟨x, rfl⟩

theorem pickRotation_LL_shape {t : Tree κ δ γ} (h : pickRotation t = some Rot.LL) :
    ∃ x, costLL t = some x := by
  rw [pickRotation_eq_specSelect] at h
  unfold specSelect at h
  split_ifs at h with h1 h2 h3 h4 <;> simp_all
  rcases hc : costLL t with _ | x
  · rw [hc] at h3; exact absurd h3.1 id
  · exact ⟨x, rfl⟩

theorem pickRotation_LR_shape {t : Tree κ δ γ} (h : pickRotation t = some Rot.LR) :
    ∃ x, costLR t = some x := by
  rw [pickRotation_eq_specSelect] at h
  unfold specSelect at h
  split_ifs at h with h1 h2 h3 h4 <;> simp_all
  rcases hc : costLR t with _ | x
  · rw [hc] at h4; exact absurd h4.1 id
  · exact ⟨x, rfl⟩

end CreditBST

namespace CreditBST
open Tree

variable {κ δ γ : Type} [LinearOrder κ] [LinearOrderedCommRing γ]

set_option linter.unusedSectionVars false

theorem balance_eq_specBalance (t : Tree κ δ γ) : balance t = specBalance t := by
  rcases t with _ | ⟨k, d, c, s, l, r⟩
  · rfl
  · unfold balance specBalance
    dsimp only
    rw [pickRotation_eq_specSelect, specCostRR_eq, specCostRL_eq, specCostLL_eq, specCostLR_eq]
    cases hsel : specSelect (costRR (node k d c s l r)) (costRL (node k d c s l r))
        (costLL (node k d c s l r)) (costLR (node k d c s l r)) with
    | none => rfl
    | some rot => cases rot <;> rfl

theorem validS_updateCreditSum (k : κ) (d : δ) (c s : γ) (l r : Tree κ δ γ)
    (hl : validS l) (hr : validS r) : validS (updateCreditSum (node k d c s l r)) :=
  ⟨rfl, hl, hr⟩

theorem validS_rotateLeft (k : κ) (d : δ) (c s : γ) (l : Tree κ δ γ)
    (rk : κ) (rd : δ) (rc rs : γ) (rl rr : Tree κ δ γ)
    (hl : validS l) (hrl : validS rl) (hrr : validS rr) :
    validS (rotateLeft (node k d c s l (node rk rd rc rs rl rr))) :=
  ⟨rfl, ⟨rfl, hl, hrl⟩, hrr⟩

theorem validS_rotateRight (k : κ) (d : δ) (c s : γ) (r : Tree κ δ γ)
    (lk : κ) (ld : δ) (lc ls : γ) (ll lr : Tree κ δ γ)
    (hll : validS ll) (hlr : validS lr) (hr : validS r) :
    validS (rotateRight (node k d c s (node lk ld lc ls ll lr) r)) :=
  ⟨rfl, hll, rfl, hlr, hr⟩

theorem validS_balApply {k : κ} {d : δ} {c s : γ} {l r : Tree κ δ γ}
    (hl : validS l) (hr : validS r) : validS (balApply (node k d c s l r)) := by
  unfold balApply
  cases hp : pickRotation (node k d c s l r) with
  | none => exact validS_updateCreditSum k d c s l r hl hr
  | some rot =>
    cases rot with
    | RR =>
        obtain ⟨x, hc⟩ := pickRotation_RR_shape hp
        rcases r with _ | ⟨rk, rd, rc, rs, rl, rr⟩
        · exact absurd hc (by simp [costRR])
        · exact validS_rotateLeft k d c s l rk rd rc rs rl rr hl hr.2.1 hr.2.2
    | RL =>
        obtain ⟨x, hc⟩ := pickRotation_RL_shape hp
        rcases r with _ | ⟨rk, rd, rc, rs, rl, rr⟩
        · exact absurd hc (by simp [costRL])
        · rcases rl with _ | ⟨a, b, e, f, g, i⟩
          · exact absurd hc (by simp [costRL])
          · exact ⟨rfl, ⟨rfl, hl, hr.2.1.2.1⟩, rfl, hr.2.1.2.2, hr.2.2⟩
    | LL =>
        obtain ⟨x, hc⟩ := pickRotation_LL_shape hp
        rcases l with _ | ⟨lk, ld, lc, ls, ll, lr⟩
        · exact absurd hc (by simp [costLL])
        · exact validS_rotateRight k d c s r lk ld lc ls ll lr hl.2.1 hl.2.2 hr
    | LR =>
        obtain ⟨x, hc⟩ := pickRotation_LR_shape hp
        rcases l with _ | ⟨lk, ld, lc, ls, ll, lr⟩
        · exact absurd hc (by simp [costLR])
        · rcases lr with _ | ⟨a, b, e, f, g, i⟩
          · exact absurd hc (by simp [costLR])
          · exact ⟨rfl, ⟨rfl, hl.2.1, hl.2.2.2.1⟩, rfl, hl.2.2.2.2, hr⟩

theorem validS_insertNode : ∀ (t : Tree κ δ γ) (k : κ) (d : δ) (c : γ),
    validS t → validS (insertNode t k d c)
  | nil, k, d, c, _ => by simp [insertNode, validS, getCreditSum]
  | node key dt cr s l r, k, d, c, h => by
      unfold insertNode
      split
      · exact validS_balApply (validS_insertNode l k d c h.2.1) h.2.2
      · exact validS_balApply h.2.1 (validS_insertNode r k d c h.2.2)

theorem validS_deleteNode : ∀ (t : Tree κ δ γ) (k : κ), validS t → validS (deleteNode t k)
  | nil, _, _ => trivial
  | node key dt cr s l r, k, h => by
      unfold deleteNode
      split
      · exact validS_balApply (validS_deleteNode l k h.2.1) h.2.2
      · split
        · exact validS_balApply h.2.1 (validS_deleteNode r k h.2.2)
        · rcases l with _ | ⟨lk, ld, lc, ls, ll, lr⟩ <;>
            rcases r with _ | ⟨rk, rd, rc, rs, rl, rr⟩
          · exact trivial
          · exact h.2.2
          · exact h.2.1
          · dsimp only
            cases hm : findMinNode (node rk rd rc rs rl rr) with
            | nil => exact trivial
            | node mk md mc ms ml mr =>
                exact validS_balApply h.2.1
                  (validS_deleteNode (node rk rd rc rs rl rr) mk h.2.2)

theorem validS_updateCreditRecursive : ∀ (t : Tree κ δ γ) (k : κ) (c : γ),
    validS t → validS (updateCreditRecursive t k c).1
  | nil, _, _, _ => trivial
  | node key dt cr s l r, k, c, h => by
      unfold updateCreditRecursive
      split
      · exact validS_updateCreditSum key dt c s l r h.2.1 h.2.2
      · split
        · exact validS_balApply (validS_updateCreditRecursive l k c h.2.1) h.2.2
        · exact validS_balApply h.2.1 (validS_updateCreditRecursive r k c h.2.2)

theorem validS_leftT {t : Tree κ δ γ} (h : validS t) : validS t.leftT := by
  cases t
  · trivial
  · exact h.2.1

theorem validS_rightT {t : Tree κ δ γ} (h : validS t) : validS t.rightT := by
  cases t
  · trivial
  · exact h.2.2

theorem validS_updateCreditByKey (t : Tree κ δ γ) (k : κ) (c : γ) (h : validS t) :
    validS (updateCreditByKey t k c) := by
  rcases t with _ | ⟨key, dt, cr, s, l, r⟩
  · trivial
  · unfold updateCreditByKey
    dsimp only
    split
    · exact validS_updateCreditRecursive _ k c h
    · by_cases hk : k < key
      · rw [if_pos hk]
        have hball : validS (balApply (node key dt cr s (updateCreditRecursive l k c).1 r)) :=
          validS_balApply (validS_updateCreditRecursive l k c h.2.1) h.2.2
        cases hp : pickRotation (node key dt cr s (updateCreditRecursive l k c).1 r) with
        | none =>
            unfold balApply at hball
            rw [hp] at hball
            exact hball
        | some rot =>
            unfold balApply at hball
            rw [hp] at hball
            cases rot
            · exact validS_leftT hball
            · exact validS_leftT hball
            · exact validS_rightT hball
            · exact validS_rightT hball
      · rw [if_neg hk]
        have hball : validS (balApply (node key dt cr s l (updateCreditRecursive r k c).1)) :=
          validS_balApply h.2.1 (validS_updateCreditRecursive r k c h.2.2)
        cases hp : pickRotation (node key dt cr s l (updateCreditRecursive r k c).1) with
        | none =>
            unfold balApply at hball
            rw [hp] at hball
            exact hball
        | some rot =>
            unfold balApply at hball
            rw [hp] at hball
            cases rot
            · exact validS_leftT hball
            · exact validS_leftT hball
            · exact validS_rightT hball
            · exact validS_rightT hball

theorem validS_applyOp (t : Tree κ δ γ) (op : Op κ δ γ) (h : validS t) :
    validS (applyOp t op) := by
  cases op with
  | ins k d c => exact validS_insertNode t k d c h
  | del k => exact validS_deleteNode t k h
  | upd k c => exact validS_updateCreditByKey t k c h

theorem validS_applyOps (ops : List (Op κ δ γ)) : validS (applyOps ops) := by
  have key : ∀ (ops : List (Op κ δ γ)) (t : Tree κ δ γ), validS t →
      validS (ops.foldl applyOp t) := by
    intro ops
    induction ops with
    | nil => exact fun t h => h
    | cons op rest ih => exact fun t h => ih _ (validS_applyOp t op h)
  exact key ops nil trivial

theorem validS_imp_approxQ {κ δ : Type} [LinearOrder κ] :
    ∀ t : Tree κ δ ℚ, validS t → approxValidQ t
  | nil, _ => trivial
  | node k d c s l r, h => by
      refine ⟨?_, validS_imp_approxQ l h.2.1, validS_imp_approxQ r h.2.2⟩
      rw [h.1]
      simp

end CreditBST

namespace CreditBST
open Tree

variable {κ δ γ : Type} [LinearOrder κ] [LinearOrderedCommRing γ]

set_option linter.unusedSectionVars false

theorem orderedT_updateCreditSum (k : κ) (d : δ) (c s : γ) (l r : Tree κ δ γ) :
    orderedT (updateCreditSum (node k d c s l r)) ↔ orderedT (node k d c s l r) :=
  Iff.rfl

theorem inorderKeys_updateCreditSum (t : Tree κ δ γ) :
    inorderKeys (updateCreditSum t) = inorderKeys t := by
  simp [inorderKeys, inorderKDC_updateCreditSum]

theorem orderedT_of_keys_eq {t u : Tree κ δ γ}
    (hk : inorderKeys u = inorderKeys t) (h : orderedT t) : orderedT u :=
  (orderedT_iff_sorted u).mpr (hk ▸ (orderedT_iff_sorted t).mp h)

theorem orderedT_balApply {t : Tree κ δ γ} (h : orderedT t) : orderedT (balApply t) :=
  orderedT_of_keys_eq (inorderKeys_balApply t) h

theorem inorderKDC_insertNode_perm : ∀ (t : Tree κ δ γ) (k : κ) (d : δ) (c : γ),
    List.Perm (inorderKDC (insertNode t k d c)) ((k, d, c) :: inorderKDC t)
  | nil, k, d, c => by simp [insertNode, inorderKDC]
  | node key dt cr s l r, k, d, c => by
      unfold insertNode
      split
      · rw [inorderKDC_balApply]
        have h2 := ((inorderKDC_insertNode_perm l k d c).append_right
          ([(key, dt, cr)])).append_right (inorderKDC r)
        simpa [inorderKDC] using h2
      · rw [inorderKDC_balApply]
        have h2 := List.Perm.append_left (inorderKDC l ++ [(key, dt, cr)])
          (inorderKDC_insertNode_perm r k d c)
        have h3 := h2.trans List.perm_middle
        simpa [inorderKDC] using h3

theorem mem_inorderKeys_insertNode {t : Tree κ δ γ} {k : κ} {d : δ} {c : γ} {x : κ}
    (h : x ∈ inorderKeys (insertNode t k d c)) : x = k ∨ x ∈ inorderKeys t := by
  have hp := (inorderKDC_insertNode_perm t k d c).map (fun y => y.1)
  have : x ∈ (k, d, c).1 :: (inorderKDC t).map (fun y => y.1) := by
    rw [inorderKeys] at h
    exact (hp.mem_iff).mp h
  simpa [inorderKeys] using this

theorem orderedT_insertNode : ∀ (t : Tree κ δ γ) (k : κ) (d : δ) (c : γ),
    orderedT t → orderedT (insertNode t k d c)
  | nil, k, d, c, _ => by simp [insertNode, orderedT, inorderKeys, inorderKDC]
  | node key dt cr s l r, k, d, c, h => by
      unfold insertNode
      split
      · refine orderedT_balApply ⟨?_, h.2.1, orderedT_insertNode l k d c h.2.2.1, h.2.2.2⟩
        intro x hx
        rcases mem_inorderKeys_insertNode hx with rfl | hx
        · exact le_of_lt (by assumption)
        · exact h.1 x hx
      · refine orderedT_balApply ⟨h.1, ?_, h.2.2.1, orderedT_insertNode r k d c h.2.2.2⟩
        intro x hx
        rcases mem_inorderKeys_insertNode hx with rfl | hx
        · exact le_of_not_lt (by assumption)
        · exact h.2.1 x hx

end CreditBST

namespace CreditBST
open Tree

variable {κ δ γ : Type} [LinearOrder κ] [LinearOrderedCommRing γ]

set_option linter.unusedSectionVars false

theorem findMinNode_shape : ∀ (k : κ) (d : δ) (c s : γ) (l r : Tree κ δ γ),
    ∃ mk md mc ms ml mr, findMinNode (node k d c s l r) = node mk md mc ms ml mr
  | k, d, c, s, nil, r => ⟨k, d, c, s, nil, r, rfl⟩
  | k, d, c, s, node lk ld lc ls ll lr, r => by
      obtain ⟨mk, md, mc, ms, ml, mr, h⟩ := findMinNode_shape lk ld lc ls ll lr
      exact ⟨mk, md, mc, ms, ml, mr, h⟩

theorem findMin_key_mem : ∀ (t : Tree κ δ γ) {mk : κ} {md : δ} {mc ms : γ}
    {ml mr : Tree κ δ γ}, findMinNode t = node mk md mc ms ml mr → mk ∈ inorderKeys t
  | nil, _, _, _, _, _, _, h => by cases h
  | node k d c s nil r, _, _, _, _, _, _, h => by
      injection h with h1 h2 h3 h4 h5 h6
      subst h1
      simp [inorderKeys_node]
  | node k d c s (node lk ld lc ls ll lr) r, mk, md, mc, ms, ml, mr, h => by
      have : mk ∈ inorderKeys (node lk ld lc ls ll lr) :=
        findMin_key_mem (node lk ld lc ls ll lr) h
      rw [inorderKeys_node]
      exact List.mem_append.mpr (Or.inl this)

theorem findMin_key_le : ∀ (t : Tree κ δ γ) {mk : κ} {md : δ} {mc ms : γ}
    {ml mr : Tree κ δ γ}, orderedT t → findMinNode t = node mk md mc ms ml mr →
    ∀ x ∈ inorderKeys t, mk ≤ x
  | nil, _, _, _, _, _, _, _, h => by cases h
  | node k d c s nil r, mk, md, mc, ms, ml, mr, ho, h => by
      injection h with h1 h2 h3 h4 h5 h6
      subst h1
      intro x hx
      rw [inorderKeys_node] at hx
      rcases List.mem_append.mp hx with hx | hx
      · simp [inorderKeys, inorderKDC] at hx
      · rcases List.mem_cons.mp hx with rfl | hx
        · exact le_refl _
        · exact ho.2.1 x hx
  | node k d c s (node lk ld lc ls ll lr) r, mk, md, mc, ms, ml, mr, ho, h => by
      have ihle : ∀ x ∈ inorderKeys (node lk ld lc ls ll lr), mk ≤ x :=
        findMin_key_le (node lk ld lc ls ll lr) ho.2.2.1 h
      have hmem : mk ∈ inorderKeys (node lk ld lc ls ll lr) :=
        findMin_key_mem (node lk ld lc ls ll lr) h
      have hmk_k : mk ≤ k := ho.1 mk hmem
      intro x hx
      rw [inorderKeys_node] at hx
      rcases List.mem_append.mp hx with hx | hx
      · exact ihle x hx
      · rcases List.mem_cons.mp hx with rfl | hx
        · exact hmk_k
        · exact le_trans hmk_k (ho.2.1 x hx)

theorem mem_inorderKeys_deleteNode : ∀ (t : Tree κ δ γ) (k : κ) {x : κ},
    x ∈ inorderKeys (deleteNode t k) → x ∈ inorderKeys t
  | nil, k, x, h => h
  | node key dt cr s l r, k, x, h => by
      unfold deleteNode at h
      split at h
      · rw [inorderKeys_balApply, inorderKeys_updateCreditSum, inorderKeys_node] at h
        rw [inorderKeys_node]
        rcases List.mem_append.mp h with h | h
        · exact List.mem_append.mpr (Or.inl (mem_inorderKeys_deleteNode l k h))
        · exact List.mem_append.mpr (Or.inr h)
      · split at h
        · rw [inorderKeys_balApply, inorderKeys_updateCreditSum, inorderKeys_node] at h
          rw [inorderKeys_node]
          rcases List.mem_append.mp h with h | h
          · exact List.mem_append.mpr (Or.inl h)
          · rcases List.mem_cons.mp h with rfl | h
            · exact List.mem_append.mpr (Or.inr (List.mem_cons_self _ _))
            · exact List.mem_append.mpr
                (Or.inr (List.mem_cons.mpr (Or.inr (mem_inorderKeys_deleteNode r k h))))
        · rcases l with _ | ⟨lk, ld, lc, ls, ll, lr⟩ <;>
            rcases r with _ | ⟨rk, rd, rc, rs, rl, rr⟩
          · dsimp only at h
            simp [inorderKeys, inorderKDC] at h
          · rw [inorderKeys_node]
            exact List.mem_append.mpr (Or.inr (List.mem_cons.mpr (Or.inr h)))
          · rw [inorderKeys_node]
            exact List.mem_append.mpr (Or.inl h)
          · dsimp only at h
            cases hm : findMinNode (node rk rd rc rs rl rr) with
            | nil =>
                rw [hm] at h
                simp [inorderKeys, inorderKDC] at h
            | node mk md mc ms ml mr =>
                rw [hm] at h
                rw [inorderKeys_balApply, inorderKeys_updateCreditSum, inorderKeys_node] at h
                rw [inorderKeys_node]
                rcases List.mem_append.mp h with h | h
                · exact List.mem_append.mpr (Or.inl h)
                · rcases List.mem_cons.mp h with rfl | h
                  · exact List.mem_append.mpr (Or.inr (List.mem_cons.mpr
                      (Or.inr (findMin_key_mem (node rk rd rc rs rl rr) hm))))
                  · exact List.mem_append.mpr (Or.inr (List.mem_cons.mpr
                      (Or.inr (mem_inorderKeys_deleteNode (node rk rd rc rs rl rr) mk h))))

end CreditBST

namespace CreditBST
open Tree

variable {κ δ γ : Type} [LinearOrder κ] [LinearOrderedCommRing γ]

set_option linter.unusedSectionVars false

theorem orderedT_deleteNode : ∀ (t : Tree κ δ γ) (k : κ), orderedT t → orderedT (deleteNode t k)
  | nil, _, _ => trivial
  | node key dt cr s l r, k, h => by
      unfold deleteNode
      split
      · refine orderedT_balApply (t := updateCreditSum (node key dt cr s (deleteNode l k) r)) ?_
        refine ⟨?_, h.2.1, orderedT_deleteNode l k h.2.2.1, h.2.2.2⟩
        intro x hx
        exact h.1 x (mem_inorderKeys_deleteNode l k hx)
      · split
        · refine orderedT_balApply (t := updateCreditSum (node key dt cr s l (deleteNode r k))) ?_
          refine ⟨h.1, ?_, h.2.2.1, orderedT_deleteNode r k h.2.2.2⟩
          intro x hx
          exact h.2.1 x (mem_inorderKeys_deleteNode r k hx)
        · rcases l with _ | ⟨lk, ld, lc, ls, ll, lr⟩ <;>
            rcases r with _ | ⟨rk, rd, rc, rs, rl, rr⟩
          · exact trivial
          · exact h.2.2.2
          · exact h.2.2.1
          · dsimp only
            cases hm : findMinNode (node rk rd rc rs rl rr) with
            | nil => exact trivial
            | node mk md mc ms ml mr =>
                refine orderedT_balApply ?_
                refine ⟨?_, ?_, h.2.2.1, orderedT_deleteNode (node rk rd rc rs rl rr) mk h.2.2.2⟩
                · intro x hx
                  exact le_trans (h.1 x hx)
                    (h.2.1 mk (findMin_key_mem (node rk rd rc rs rl rr) hm))
                · intro x hx
                  exact findMin_key_le (node rk rd rc rs rl rr) h.2.2.2 hm x
                    (mem_inorderKeys_deleteNode (node rk rd rc rs rl rr) mk hx)

theorem inorderKeys_updateCreditRecursive : ∀ (t : Tree κ δ γ) (k : κ) (c : γ),
    inorderKeys (updateCreditRecursive t k c).1 = inorderKeys t
  | nil, _, _ => rfl
  | node key dt cr s l r, k, c => by
      unfold updateCreditRecursive
      split
      · rw [inorderKeys_updateCreditSum, inorderKeys_node, inorderKeys_node]
      · split
        · show inorderKeys (balApply (node key dt cr s (updateCreditRecursive l k c).1 r)) = _
          rw [inorderKeys_balApply, inorderKeys_node, inorderKeys_node,
            inorderKeys_updateCreditRecursive l k c]
        · show inorderKeys (balApply (node key dt cr s l (updateCreditRecursive r k c).1)) = _
          rw [inorderKeys_balApply, inorderKeys_node, inorderKeys_node,
            inorderKeys_updateCreditRecursive r k c]

theorem orderedT_leftT {t : Tree κ δ γ} (h : orderedT t) : orderedT t.leftT := by
  cases t
  · trivial
  · exact h.2.2.1

theorem orderedT_rightT {t : Tree κ δ γ} (h : orderedT t) : orderedT t.rightT := by
  cases t
  · trivial
  · exact h.2.2.2

theorem inorderKeys_applyRotation (rot : Rot) (t : Tree κ δ γ) :
    inorderKeys (applyRotation rot t) = inorderKeys t := by
  simp [inorderKeys, inorderKDC_applyRotation]

theorem orderedT_updateCreditByKey (t : Tree κ δ γ) (k : κ) (c : γ) (h : orderedT t) :
    orderedT (updateCreditByKey t k c) := by
  rcases t with _ | ⟨key, dt, cr, s, l, r⟩
  · trivial
  · unfold updateCreditByKey
    dsimp only
    split
    · exact orderedT_of_keys_eq (inorderKeys_updateCreditRecursive _ k c) h
    · by_cases hk : k < key
      · rw [if_pos hk]
        have hkeys : inorderKeys (node key dt cr s (updateCreditRecursive l k c).1 r) =
            inorderKeys (node key dt cr s l r) := by
          rw [inorderKeys_node, inorderKeys_node, inorderKeys_updateCreditRecursive l k c]
        have ht' : orderedT (node key dt cr s (updateCreditRecursive l k c).1 r) :=
          orderedT_of_keys_eq hkeys h
        cases hp : pickRotation (node key dt cr s (updateCreditRecursive l k c).1 r) with
        | none => exact orderedT_of_keys_eq (inorderKeys_updateCreditSum _) ht'
        | some rot =>
            have hrot : orderedT (applyRotation rot
                (node key dt cr s (updateCreditRecursive l k c).1 r)) :=
              orderedT_of_keys_eq (inorderKeys_applyRotation rot _) ht'
            cases rot
            · exact orderedT_leftT hrot
            · exact orderedT_leftT hrot
            · exact orderedT_rightT hrot
            · exact orderedT_rightT hrot
      · rw [if_neg hk]
        have hkeys : inorderKeys (node key dt cr s l (updateCreditRecursive r k c).1) =
            inorderKeys (node key dt cr s l r) := by
          rw [inorderKeys_node, inorderKeys_node, inorderKeys_updateCreditRecursive r k c]
        have ht' : orderedT (node key dt cr s l (updateCreditRecursive r k c).1) :=
          orderedT_of_keys_eq hkeys h
        cases hp : pickRotation (node key dt cr s l (updateCreditRecursive r k c).1) with
        | none => exact orderedT_of_keys_eq (inorderKeys_updateCreditSum _) ht'
        | some rot =>
            have hrot : orderedT (applyRotation rot
                (node key dt cr s l (updateCreditRecursive r k c).1)) :=
              orderedT_of_keys_eq (inorderKeys_applyRotation rot _) ht'
            cases rot
            · exact orderedT_leftT hrot
            · exact orderedT_leftT hrot
            · exact orderedT_rightT hrot
            · exact orderedT_rightT hrot

theorem orderedT_applyOp (t : Tree κ δ γ) (op : Op κ δ γ) (h : orderedT t) :
    orderedT (applyOp t op) := by
  cases op with
  | ins k d c => exact orderedT_insertNode t k d c h
  | del k => exact orderedT_deleteNode t k h
  | upd k c => exact orderedT_updateCreditByKey t k c h

theorem orderedT_applyOps (ops : List (Op κ δ γ)) : orderedT (applyOps ops) := by
  have key : ∀ (ops : List (Op κ δ γ)) (t : Tree κ δ γ), orderedT t →
      orderedT (ops.foldl applyOp t) := by
    intro ops
    induction ops with
    | nil => exact fun t h => h
    | cons op rest ih => exact fun t h => ih _ (orderedT_applyOp t op h)
  exact key ops nil trivial

end CreditBST

namespace CreditBST
open Tree

variable {κ δ γ : Type} [LinearOrder κ] [LinearOrderedCommRing γ]

set_option linter.unusedSectionVars false

theorem creditList_node (k : κ) (d : δ) (c s : γ) (l r : Tree κ δ γ) :
    creditList (node k d c s l r) = creditList l ++ c :: creditList r := by
  simp [creditList, inorderNodes, creditD]

theorem length_creditList (t : Tree κ δ γ) :
    (creditList t).length = (inorderNodes t).length := by
  simp [creditList]

theorem getCreditSum_eq_sum : ∀ t : Tree κ δ γ, validS t → getCreditSum t = (creditList t).sum
  | nil, _ => by simp [getCreditSum, creditList, inorderNodes]
  | node k d c s l r, h => by
      rw [creditList_node, List.sum_append, List.sum_cons]
      show s = _
      rw [h.1, getCreditSum_eq_sum l h.2.1, getCreditSum_eq_sum r h.2.2]
      ring

theorem sum_take_nonneg {xs : List γ} (h : ∀ x ∈ xs, 0 ≤ x) (i : ℕ) :
    0 ≤ (xs.take i).sum :=
  List.sum_nonneg (fun x hx => h x (List.take_subset _ _ hx))

theorem take_sum_get_le {xs : List γ} (h : ∀ x ∈ xs, 0 ≤ x) (i : ℕ) (hi : i < xs.length) :
    (xs.take i).sum + xs.get ⟨i, hi⟩ ≤ xs.sum := by
  have h1 := List.sum_take_add_sum_drop xs (i + 1)
  have h2 : (xs.take (i + 1)).sum = (xs.take i).sum + xs.get ⟨i, hi⟩ := by
    rw [← List.take_concat_get xs i hi, List.sum_concat]
    rfl
  have h3 : 0 ≤ (xs.drop (i + 1)).sum :=
    List.sum_nonneg (fun x hx => h x (List.drop_subset _ _ hx))
  rw [h2] at h1
  linarith

theorem findByCredit_found : ∀ (t : Tree κ δ γ), validS t → (∀ x ∈ creditList t, 0 ≤ x) →
    ∀ (i : ℕ) (hi : i < (inorderNodes t).length) (q : γ),
      prefixCredit t i ≤ q → q < prefixCredit t i + creditD ((inorderNodes t).get ⟨i, hi⟩) →
      findNodeByCreditHelper t q = some ((inorderNodes t).get ⟨i, hi⟩)
  | nil => by intro _ _ i hi; simp [inorderNodes] at hi
  | node key dt cr s l r => by
      intro hv hn i hi q hq1 hq2
      have hLen : (creditList l).length = (inorderNodes l).length := length_creditList l
      have hnl : ∀ x ∈ creditList l, 0 ≤ x := by
        intro x hx; exact hn x (by rw [creditList_node]; exact List.mem_append.mpr (Or.inl hx))
      have hnr : ∀ x ∈ creditList r, 0 ≤ x := by
        intro x hx
        exact hn x (by
          rw [creditList_node]
          exact List.mem_append.mpr (Or.inr (List.mem_cons.mpr (Or.inr hx))))
      have hcr : (0 : γ) ≤ cr := hn cr (by
        rw [creditList_node]; exact List.mem_append.mpr (Or.inr (List.mem_cons_self _ _)))
      have hsl : getCreditSum l = (creditList l).sum := getCreditSum_eq_sum l hv.2.1
      have hsr : getCreditSum r = (creditList r).sum := getCreditSum_eq_sum r hv.2.2
      rcases lt_trichotomy i (inorderNodes l).length with hiL | hiL | hiL
      · -- target node lies in the left subtree
        have hgetl : (inorderNodes (node key dt cr s l r)).get ⟨i, hi⟩ =
            (inorderNodes l).get ⟨i, hiL⟩ := by
          show (inorderNodes (node key dt cr s l r))[i] = (inorderNodes l)[i]
          show ((inorderNodes l ++ [node key dt cr s l r]) ++ inorderNodes r)[i] = _
          rw [List.getElem_append_left (by simp; omega), List.getElem_append_left hiL]
        have hpre : prefixCredit (node key dt cr s l r) i = prefixCredit l i := by
          unfold prefixCredit
          rw [creditList_node, List.take_append_eq_append_take,
            Nat.sub_eq_zero_of_le (by rw [hLen]; exact le_of_lt hiL)]
          simp
        rw [hgetl] at hq2
        rw [hpre] at hq1 hq2
        have hlt : q < getCreditSum l := by
          have hle := take_sum_get_le hnl i (by rw [hLen]; exact hiL)
          have hgm : (creditList l).get ⟨i, by rw [hLen]; exact hiL⟩ =
              creditD ((inorderNodes l).get ⟨i, hiL⟩) := by
            show (creditList l)[i] = _
            simp [creditList]
          rw [hgm] at hle
          rw [hsl]
          calc q < prefixCredit l i + creditD ((inorderNodes l).get ⟨i, hiL⟩) := hq2
            _ ≤ (creditList l).sum := hle
        show findNodeByCreditHelper (node key dt cr s l r) q = _
        unfold findNodeByCreditHelper
        rw [if_pos hlt, hgetl]
        exact findByCredit_found l hv.2.1 hnl i hiL q hq1 hq2
      · -- the node itself is the answer
        have hget : (inorderNodes (node key dt cr s l r)).get ⟨i, hi⟩ =
            node key dt cr s l r := by
          show ((inorderNodes l ++ [node key dt cr s l r]) ++ inorderNodes r)[i] = _
          rw [List.getElem_append_left (by simp; omega)]
          rw [List.getElem_append_right (by omega)]
          simp [hiL]
        have hpre : prefixCredit (node key dt cr s l r) i = (creditList l).sum := by
          unfold prefixCredit
          rw [creditList_node, List.take_append_eq_append_take,
            Nat.sub_eq_zero_of_le (by rw [hLen, hiL]),
            List.take_of_length_le (by rw [hLen, hiL])]
          simp
        rw [hget] at hq2
        rw [hpre] at hq1 hq2
        have hcd : creditD (node key dt cr s l r) = cr := rfl
        rw [hcd] at hq2
        unfold findNodeByCreditHelper
        rw [if_neg (by rw [hsl]; exact not_lt.mpr hq1), if_pos (by rw [hsl]; exact hq2), hget]
      · -- target node lies in the right subtree
        obtain ⟨j, rfl⟩ : ∃ j, i = (inorderNodes l).length + 1 + j :=
          ⟨i - ((inorderNodes l).length + 1), by omega⟩
        have hjr : j < (inorderNodes r).length := by
          have := hi
          simp [inorderNodes] at this
          omega
        have hget : (inorderNodes (node key dt cr s l r)).get
            ⟨(inorderNodes l).length + 1 + j, hi⟩ = (inorderNodes r).get ⟨j, hjr⟩ := by
          rw [List.get_eq_getElem, List.get_eq_getElem]
          show ((inorderNodes l ++ [node key dt cr s l r]) ++ inorderNodes r)[
            (inorderNodes l).length + 1 + j] = (inorderNodes r)[j]
          rw [List.getElem_append_right (by simp)]
          congr 1
          simp
        have hpre : prefixCredit (node key dt cr s l r) ((inorderNodes l).length + 1 + j) =
            (creditList l).sum + cr + prefixCredit r j := by
          unfold prefixCredit
          rw [creditList_node, List.take_append_eq_append_take,
            List.take_of_length_le (by rw [hLen]; omega), List.sum_append]
          have harith : (inorderNodes l).length + 1 + j - (creditList l).length = 1 + j := by
            rw [hLen]; omega
          rw [harith]
          have : (cr :: creditList r).take (1 + j) = cr :: (creditList r).take j := by
            have h1j : 1 + j = j + 1 := by omega
            rw [h1j]
            simp [List.take_succ_cons]
          rw [this]
          simp
          ring
        rw [hget] at hq2
        rw [hpre] at hq1 hq2
        have hpj : 0 ≤ prefixCredit r j := sum_take_nonneg hnr j
        have hq1' : prefixCredit r j ≤ q - getCreditSum l - cr := by rw [hsl]; linarith
        have hq2' : q - getCreditSum l - cr <
            prefixCredit r j + creditD ((inorderNodes r).get ⟨j, hjr⟩) := by
          rw [hsl]; linarith
        unfold findNodeByCreditHelper
        rw [if_neg (by rw [hsl]; push_neg; linarith), if_neg (by rw [hsl]; push_neg; linarith),
          hget]
        exact findByCredit_found r hv.2.2 hnr j hjr _ hq1' hq2'

theorem findByCredit_out : ∀ (t : Tree κ δ γ), validS t → (∀ x ∈ creditList t, 0 ≤ x) →
    ∀ q : γ, getCreditSum t ≤ q → findNodeByCreditHelper t q = none
  | nil => by intro _ _ q _; rfl
  | node key dt cr s l r => by
      intro hv hn q hq
      have hnl : ∀ x ∈ creditList l, 0 ≤ x := by
        intro x hx; exact hn x (by rw [creditList_node]; exact List.mem_append.mpr (Or.inl hx))
      have hnr : ∀ x ∈ creditList r, 0 ≤ x := by
        intro x hx
        exact hn x (by
          rw [creditList_node]
          exact List.mem_append.mpr (Or.inr (List.mem_cons.mpr (Or.inr hx))))
      have hcr : (0 : γ) ≤ cr := hn cr (by
        rw [creditList_node]; exact List.mem_append.mpr (Or.inr (List.mem_cons_self _ _)))
      have hsr : getCreditSum r = (creditList r).sum := getCreditSum_eq_sum r hv.2.2
      have hrnn : 0 ≤ getCreditSum r := by rw [hsr]; exact List.sum_nonneg hnr
      have hs : s = cr + getCreditSum l + getCreditSum r := hv.1
      rw [show getCreditSum (node key dt cr s l r) = s from rfl, hs] at hq
      unfold findNodeByCreditHelper
      rw [if_neg (by push_neg; linarith), if_neg (by push_neg; linarith)]
      exact findByCredit_out r hv.2.2 hnr _ (by linarith)

end CreditBST

namespace CreditBST
open Tree

variable {κ δ γ : Type} [LinearOrder κ] [LinearOrderedCommRing γ]

set_option linter.unusedSectionVars false

theorem mem_keys_of_mem_KDC {t : Tree κ δ γ} {x : κ × δ × γ} (h : x ∈ inorderKDC t) :
    x.1 ∈ inorderKeys t :=
  List.mem_map_of_mem _ h

theorem findNodesByKeyHelper_eq_filter : ∀ (t : Tree κ δ γ) (k : κ), orderedT t →
    (findNodesByKeyHelper t k).flatMap kdcL =
      (inorderKDC t).filter (fun x => decide (x.1 = k))
  | nil, k, _ => rfl
  | node key dt cr s l r, k, h => by
      unfold findNodesByKeyHelper
      by_cases h1k : k < key
      · rw [if_pos h1k, findNodesByKeyHelper_eq_filter l k h.2.2.1]
        show _ = List.filter _ (inorderKDC l ++ [(key, dt, cr)] ++ inorderKDC r)
        rw [List.filter_append, List.filter_append]
        have h1 : List.filter (fun x => decide (x.1 = k)) [((key, dt, cr) : κ × δ × γ)] = [] := by
          simp
          intro he
          exact absurd h1k (by rw [he]; exact lt_irrefl k)
        have h2 : List.filter (fun x => decide (x.1 = k)) (inorderKDC r) = [] := by
          rw [List.filter_eq_nil_iff]
          intro a ha
          have hk2 : key ≤ a.1 := h.2.1 a.1 (mem_keys_of_mem_KDC ha)
          simp
          intro he
          rw [he] at hk2
          exact absurd (lt_of_lt_of_le h1k hk2) (lt_irrefl k)
        rw [h1, h2]
        simp
      · rw [if_neg h1k]
        by_cases h2k : key < k
        · rw [if_pos h2k, findNodesByKeyHelper_eq_filter r k h.2.2.2]
          show _ = List.filter _ (inorderKDC l ++ [(key, dt, cr)] ++ inorderKDC r)
          rw [List.filter_append, List.filter_append]
          have h1 : List.filter (fun x => decide (x.1 = k)) [((key, dt, cr) : κ × δ × γ)] = [] := by
            simp
            intro he
            exact absurd h2k (by rw [he]; exact lt_irrefl k)
          have h2 : List.filter (fun x => decide (x.1 = k)) (inorderKDC l) = [] := by
            rw [List.filter_eq_nil_iff]
            intro a ha
            have hk2 : a.1 ≤ key := h.1 a.1 (mem_keys_of_mem_KDC ha)
            simp
            intro he
            rw [he] at hk2
            exact absurd (lt_of_le_of_lt hk2 h2k) (lt_irrefl k)
          rw [h1, h2]
          simp
        · rw [if_neg h2k]
          have hkey : key = k := le_antisymm (le_of_not_lt h1k) (le_of_not_lt h2k)
          rw [List.flatMap_append, List.flatMap_append,
            findNodesByKeyHelper_eq_filter l k h.2.2.1,
            findNodesByKeyHelper_eq_filter r k h.2.2.2]
          show _ = List.filter _ (inorderKDC l ++ [(key, dt, cr)] ++ inorderKDC r)
          rw [List.filter_append, List.filter_append]
          have h1 : List.filter (fun x => decide (x.1 = k)) [((key, dt, cr) : κ × δ × γ)] =
              [(key, dt, cr)] := by simp [hkey]
          rw [h1]
          simp [kdcL]

theorem findNodesByKeyHelper_nonnil : ∀ (t : Tree κ δ γ) (k : κ),
    ∀ n ∈ findNodesByKeyHelper t k, isNil n = false
  | nil, k => by intro n hn; cases hn
  | node key dt cr s l r, k => by
      intro n hn
      unfold findNodesByKeyHelper at hn
      split at hn
      · exact findNodesByKeyHelper_nonnil l k n hn
      · split at hn
        · exact findNodesByKeyHelper_nonnil r k n hn
        · rcases List.mem_append.mp hn with hn | hn
          · rcases List.mem_append.mp hn with hn | hn
            · exact findNodesByKeyHelper_nonnil l k n hn
            · rcases List.mem_cons.mp hn with rfl | hn
              · rfl
              · cases hn
          · exact findNodesByKeyHelper_nonnil r k n hn

theorem flatMap_kdcL_length : ∀ (L : List (Tree κ δ γ)),
    (∀ n ∈ L, isNil n = false) → (L.flatMap kdcL).length = L.length
  | [], _ => rfl
  | n :: rest, h => by
      rcases n with _ | ⟨k, d, c, s, l, r⟩
      · have := h nil (List.mem_cons_self _ _)
        simp [isNil] at this
      · show (kdcL (node k d c s l r) ++ rest.flatMap kdcL).length = rest.length + 1
        rw [List.length_append]
        rw [flatMap_kdcL_length rest (fun m hm => h m (List.mem_cons.mpr (Or.inr hm)))]
        simp [kdcL]
        omega

end CreditBST

namespace CreditBST
open Tree

set_option linter.unusedSectionVars false

theorem not_lex_of_pre {α : Type} [LinearOrder α] :
    ∀ {p k : List α}, p <+: k → ¬ List.Lex (· < ·) k p
  | [], k, _, hlex => by cases hlex
  | a :: p', k, hpre, hlex => by
      obtain ⟨t, rfl⟩ := hpre
      cases hlex with
      | rel hab => exact lt_irrefl a hab
      | cons hl => exact not_lex_of_pre ⟨t, rfl⟩ hl

theorem lex_of_pre_of_lex {α : Type} [LinearOrder α] :
    ∀ {p m k : List α}, List.Lex (· < ·) p m → ¬ p <+: m → p <+: k → List.Lex (· < ·) k m
  | [], m, k, _, hnp, _ => absurd List.nil_prefix hnp
  | a :: as, [], k, hlex, _, _ => by cases hlex
  | a :: as, b :: bs, k, hlex, hnp, hpre => by
      obtain ⟨t, rfl⟩ := hpre
      cases hlex with
      | rel hab => exact List.Lex.rel hab
      | cons hl =>
          refine List.Lex.cons (lex_of_pre_of_lex hl ?_ ⟨t, rfl⟩)
          intro hp
          exact hnp (List.cons_prefix_cons.mpr ⟨rfl, hp⟩)

theorem eq_or_lex_of_pre {α : Type} [LinearOrder α] :
    ∀ {p k : List α}, p <+: k → p = k ∨ List.Lex (· < ·) p k
  | [], [], _ => Or.inl rfl
  | [], b :: bs, _ => Or.inr List.Lex.nil
  | a :: as, k, hpre => by
      obtain ⟨t, rfl⟩ := hpre
      rcases eq_or_lex_of_pre (p := as) (k := as ++ t) ⟨t, rfl⟩ with he | hl
      · exact Or.inl (by rw [List.cons_append, ← he])
      · exact Or.inr (List.Lex.cons hl)

theorem lex_of_lex_of_pre {α : Type} [LinearOrder α] {p m k : List α}
    (hml : List.Lex (· < ·) m p) (hpre : p <+: k) : List.Lex (· < ·) m k := by
  rcases eq_or_lex_of_pre hpre with rfl | hl
  · exact hml
  · show m < k
    exact lt_trans (show m < p from hml) (show p < k from hl)

theorem inorderNodes_nonnil : ∀ (t : Tree κ δ γ) [LinearOrder κ] [LinearOrderedCommRing γ],
    ∀ n ∈ inorderNodes t, isNil n = false := by
  intro t _ _
  induction t with
  | nil => intro n hn; cases hn
  | node k d c s l r ihl ihr =>
      intro n hn
      rw [show inorderNodes (Tree.node k d c s l r) =
        inorderNodes l ++ [Tree.node k d c s l r] ++ inorderNodes r from rfl] at hn
      rcases List.mem_append.mp hn with hn | hn
      · rcases List.mem_append.mp hn with hn | hn
        · exact ihl n hn
        · rcases List.mem_cons.mp hn with rfl | hn
          · rfl
          · cases hn
      · exact ihr n hn

theorem mem_keys_of_mem_nodes {κ δ γ : Type} [LinearOrder κ] [LinearOrderedCommRing γ] :
    ∀ {t : Tree κ δ γ} {k : κ} {d : δ} {c s : γ} {l r : Tree κ δ γ},
    Tree.node k d c s l r ∈ inorderNodes t → k ∈ inorderKeys t := by
  intro t
  induction t with
  | nil => intro k d c s l r hn; cases hn
  | node k0 d0 c0 s0 l0 r0 ihl ihr =>
      intro k d c s l r hn
      rw [show inorderNodes (Tree.node k0 d0 c0 s0 l0 r0) =
        inorderNodes l0 ++ [Tree.node k0 d0 c0 s0 l0 r0] ++ inorderNodes r0 from rfl] at hn
      rw [inorderKeys_node]
      rcases List.mem_append.mp hn with hn | hn
      · rcases List.mem_append.mp hn with hn | hn
        · exact List.mem_append.mpr (Or.inl (ihl hn))
        · rcases List.mem_cons.mp hn with he | hn
          · injection he with h1 h2 h3 h4 h5 h6
            subst h1
            exact List.mem_append.mpr (Or.inr (List.mem_cons_self _ _))
          · cases hn
      · exact List.mem_append.mpr (Or.inr (List.mem_cons.mpr (Or.inr (ihr hn))))

end CreditBST

namespace CreditBST
open Tree

set_option linter.unusedSectionVars false

theorem findNodesByPrefix_perm {δ γ : Type} [LinearOrderedCommRing γ] :
    ∀ (t : Tree (List Char) δ γ), orderedT t → ∀ p : List Char,
      List.Perm (findNodesByPrefixHelper t p)
        ((inorderNodes t).filter (matchesPrefix p))
  | nil, _, p => by simp [findNodesByPrefixHelper, inorderNodes]
  | node key dt cr s l r, h, p => by
      unfold findNodesByPrefixHelper
      have hnodes : inorderNodes (node key dt cr s l r) =
          inorderNodes l ++ [node key dt cr s l r] ++ inorderNodes r := rfl
      by_cases hm : p = [] ∨ p.isPrefixOf key
      · rw [if_pos hm, hnodes, List.filter_append, List.filter_append]
        have hmatch : matchesPrefix p (node key dt cr s l r) = true := by
          rcases hm with rfl | hm
          · show List.isPrefixOf [] key = true
            exact List.isPrefixOf_iff_prefix.mpr List.nil_prefix
          · exact hm
        rw [show List.filter (matchesPrefix p) [node key dt cr s l r] =
          [node key dt cr s l r] by simp [hmatch]]
        have hperm := List.Perm.cons (node key dt cr s l r)
          ((findNodesByPrefix_perm l h.2.2.1 p).append (findNodesByPrefix_perm r h.2.2.2 p))
        refine hperm.trans ?_
        have := (@List.perm_middle _ (node key dt cr s l r)
          ((inorderNodes l).filter (matchesPrefix p))
          ((inorderNodes r).filter (matchesPrefix p))).symm
        refine this.trans ?_
        simp
      · rw [if_neg hm]
        have hnp : ¬ p <+: key := by
          intro hp
          exact hm (Or.inr ( List.isPrefixOf_iff_prefix.mpr hp))
        have hmatchf : matchesPrefix p (node key dt cr s l r) = false := by
          show List.isPrefixOf p key = false
          rw [Bool.eq_false_iff]
          intro hp
          exact hnp ( List.isPrefixOf_iff_prefix.mp hp)
        by_cases hlt : p < key
        · rw [if_pos hlt, hnodes, List.filter_append, List.filter_append]
          have hfr : (inorderNodes r).filter (matchesPrefix p) = [] := by
            rw [List.filter_eq_nil_iff]
            intro n hn
            rcases n with _ | ⟨k2, d2, c2, s2, l2, r2⟩
            · simp [matchesPrefix]
            · simp [matchesPrefix]
              intro hp
              have hk2 : key ≤ k2 := h.2.1 k2 (mem_keys_of_mem_nodes hn)
              have : List.Lex (· < ·) k2 key := lex_of_pre_of_lex hlt hnp hp
              exact absurd (show k2 < key from this) (not_lt.mpr hk2)
          rw [hfr, show List.filter (matchesPrefix p) [node key dt cr s l r] = [] by
            simp [hmatchf]]
          simp only [List.append_nil]
          exact findNodesByPrefix_perm l h.2.2.1 p
        · rw [if_neg hlt, hnodes, List.filter_append, List.filter_append]
          have hkey_lt : key < p := by
            rcases lt_trichotomy p key with h1 | h1 | h1
            · exact absurd h1 hlt
            · exact absurd (h1 ▸ List.prefix_refl p) hnp
            · exact h1
          have hfl : (inorderNodes l).filter (matchesPrefix p) = [] := by
            rw [List.filter_eq_nil_iff]
            intro n hn
            rcases n with _ | ⟨k2, d2, c2, s2, l2, r2⟩
            · simp [matchesPrefix]
            · simp [matchesPrefix]
              intro hp
              have hk2 : k2 ≤ key := h.1 k2 (mem_keys_of_mem_nodes hn)
              have : List.Lex (· < ·) key k2 := lex_of_lex_of_pre hkey_lt hp
              exact absurd (show key < k2 from this) (not_lt.mpr hk2)
          rw [hfl, show List.filter (matchesPrefix p) [node key dt cr s l r] = [] by
            simp [hmatchf]]
          simp only [List.nil_append]
          exact findNodesByPrefix_perm r h.2.2.2 p

end CreditBST

namespace CreditBST
open Tree

variable {κ δ γ : Type} [LinearOrder κ] [LinearOrderedCommRing γ]

set_option linter.unusedSectionVars false

theorem findMin_head : ∀ (t : Tree κ δ γ) {mk : κ} {md : δ} {mc ms : γ}
    {ml mr : Tree κ δ γ}, findMinNode t = node mk md mc ms ml mr →
    ∃ rest, inorderKDC t = (mk, md, mc) :: rest
  | nil, _, _, _, _, _, _, h => by cases h
  | node k d c s nil r, mk, md, mc, ms, ml, mr, h => by
      injection h with h1 h2 h3 h4 h5 h6
      subst h1; subst h2; subst h3
      exact ⟨inorderKDC r, by simp [inorderKDC]⟩
  | node k d c s (node lk ld lc ls ll lr) r, mk, md, mc, ms, ml, mr, h => by
      obtain ⟨rest, hrest⟩ := findMin_head (node lk ld lc ls ll lr) h
      refine ⟨rest ++ [(k, d, c)] ++ inorderKDC r, ?_⟩
      show inorderKDC (node lk ld lc ls ll lr) ++ [(k, d, c)] ++ inorderKDC r = _
      rw [hrest]
      simp

theorem deleteMin_inorder : ∀ (t : Tree κ δ γ), orderedT t →
    ∀ {mk : κ} {md : δ} {mc ms : γ} {ml mr : Tree κ δ γ},
    findMinNode t = node mk md mc ms ml mr →
    (inorderKeys t).count mk = 1 →
    inorderKDC (deleteNode t mk) = (inorderKDC t).tail
  | nil, _, _, _, _, _, _, _, h, _ => by cases h
  | node k d c s nil r, ho, mk, md, mc, ms, ml, mr, h, hcount => by
      injection h with h1 h2 h3 h4 h5 h6
      subst h1
      unfold deleteNode
      rw [if_neg (lt_irrefl k), if_neg (lt_irrefl k)]
      rcases r with _ | ⟨rk, rd, rc, rs, rl, rr⟩ <;> simp [inorderKDC]
  | node k d c s (node lk ld lc ls ll lr) r, ho, mk, md, mc, ms, ml, mr, h, hcount => by
      have hmem : mk ∈ inorderKeys (node lk ld lc ls ll lr) :=
        findMin_key_mem (node lk ld lc ls ll lr) h
      have hposL : 0 < (inorderKeys (node lk ld lc ls ll lr)).count mk :=
        List.count_pos_iff.mpr hmem
      have hcount2 := hcount
      rw [inorderKeys_node, List.count_append, List.count_cons] at hcount2
      have hne : mk ≠ k := by
        intro he
        rw [if_pos (by rw [he]; exact beq_self_eq_true k)] at hcount2
        omega
      have hcountL : (inorderKeys (node lk ld lc ls ll lr)).count mk = 1 := by
        rw [if_neg (by simp; exact fun he => hne he.symm)] at hcount2
        omega
      have hlt : mk < k := lt_of_le_of_ne (ho.1 mk hmem) hne
      unfold deleteNode
      rw [if_pos hlt]
      rw [inorderKDC_balApply, inorderKDC_updateCreditSum]
      show inorderKDC (deleteNode (node lk ld lc ls ll lr) mk) ++ [(k, d, c)] ++ inorderKDC r = _
      rw [deleteMin_inorder (node lk ld lc ls ll lr) ho.2.2.1 h hcountL]
      obtain ⟨rest, hrest⟩ := findMin_head (node lk ld lc ls ll lr) h
      rw [show inorderKDC (node k d c s (node lk ld lc ls ll lr) r) =
        inorderKDC (node lk ld lc ls ll lr) ++ [(k, d, c)] ++ inorderKDC r from rfl, hrest]
      simp

theorem updateCreditSum_eq_self {k : κ} {d : δ} {c s : γ} {l r : Tree κ δ γ}
    (h : validS (node k d c s l r)) :
    updateCreditSum (node k d c s l r) = node k d c s l r := by
  show node k d c (c + getCreditSum l + getCreditSum r) l r = _
  rw [← h.1]

theorem balApply_eq_self {t : Tree κ δ γ} (hp : pickRotation t = none) (hv : validS t) :
    balApply t = t := by
  unfold balApply
  rw [hp]
  rcases t with _ | ⟨k, d, c, s, l, r⟩
  · rfl
  · exact updateCreditSum_eq_self hv

theorem not_mem_keys_node {k key : κ} {dt : δ} {cr s : γ} {l r : Tree κ δ γ}
    (h : k ∉ inorderKeys (node key dt cr s l r)) :
    k ≠ key ∧ k ∉ inorderKeys l ∧ k ∉ inorderKeys r := by
  rw [inorderKeys_node] at h
  refine ⟨?_, ?_, ?_⟩
  · intro he
    exact h (List.mem_append.mpr (Or.inr (List.mem_cons.mpr (Or.inl he))))
  · intro hm
    exact h (List.mem_append.mpr (Or.inl hm))
  · intro hm
    exact h (List.mem_append.mpr (Or.inr (List.mem_cons.mpr (Or.inr hm))))

theorem deleteNode_absent : ∀ (t : Tree κ δ γ) (k : κ), validS t → stableS t →
    k ∉ inorderKeys t → deleteNode t k = t
  | nil, _, _, _, _ => rfl
  | node key dt cr s l r, k, hv, hs, hk => by
      obtain ⟨hne, hkl, hkr⟩ := not_mem_keys_node hk
      rcases lt_or_gt_of_ne hne with hlt | hgt
      · unfold deleteNode
        rw [if_pos hlt, deleteNode_absent l k hv.2.1 hs.2.1 hkl,
          updateCreditSum_eq_self hv, balApply_eq_self hs.1 hv]
      · unfold deleteNode
        rw [if_neg (not_lt.mpr (le_of_lt hgt)), if_pos hgt,
          deleteNode_absent r k hv.2.2 hs.2.2 hkr,
          updateCreditSum_eq_self hv, balApply_eq_self hs.1 hv]

theorem updateCreditRecursive_absent : ∀ (t : Tree κ δ γ) (k : κ) (c : γ), validS t →
    stableS t → k ∉ inorderKeys t → updateCreditRecursive t k c = (t, 0)
  | nil, _, _, _, _, _ => rfl
  | node key dt cr s l r, k, c, hv, hs, hk => by
      obtain ⟨hne, hkl, hkr⟩ := not_mem_keys_node hk
      unfold updateCreditRecursive
      rw [if_neg (Ne.symm hne)]
      rcases lt_or_gt_of_ne hne with hlt | hgt
      · rw [if_pos hlt]
        rw [updateCreditRecursive_absent l k c hv.2.1 hs.2.1 hkl]
        show (balApply (node key dt cr s l r), 0) = _
        rw [balApply_eq_self hs.1 hv]
      · rw [if_neg (not_lt.mpr (le_of_lt hgt))]
        rw [updateCreditRecursive_absent r k c hv.2.2 hs.2.2 hkr]
        show (balApply (node key dt cr s l r), 0) = _
        rw [balApply_eq_self hs.1 hv]

theorem updateCreditByKey_absent (t : Tree κ δ γ) (k : κ) (c : γ) (hv : validS t)
    (hs : stableS t) (hk : k ∉ inorderKeys t) : updateCreditByKey t k c = t := by
  rcases t with _ | ⟨key, dt, cr, s, l, r⟩
  · rfl
  · obtain ⟨hne, hkl, hkr⟩ := not_mem_keys_node hk
    unfold updateCreditByKey
    dsimp only
    rw [if_neg (Ne.symm hne)]
    by_cases hlt : k < key
    · rw [if_pos hlt, updateCreditRecursive_absent l k c hv.2.1 hs.2.1 hkl]
      show (match pickRotation (node key dt cr s l r) with
        | none => updateCreditSum (node key dt cr s l r)
        | some Rot.RR => (applyRotation Rot.RR (node key dt cr s l r)).leftT
        | some Rot.RL => (applyRotation Rot.RL (node key dt cr s l r)).leftT
        | some Rot.LL => (applyRotation Rot.LL (node key dt cr s l r)).rightT
        | some Rot.LR => (applyRotation Rot.LR (node key dt cr s l r)).rightT) = _
      rw [hs.1]
      exact updateCreditSum_eq_self hv
    · rw [if_neg hlt, updateCreditRecursive_absent r k c hv.2.2 hs.2.2 hkr]
      show (match pickRotation (node key dt cr s l r) with
        | none => updateCreditSum (node key dt cr s l r)
        | some Rot.RR => (applyRotation Rot.RR (node key dt cr s l r)).leftT
        | some Rot.RL => (applyRotation Rot.RL (node key dt cr s l r)).leftT
        | some Rot.LL => (applyRotation Rot.LL (node key dt cr s l r)).rightT
        | some Rot.LR => (applyRotation Rot.LR (node key dt cr s l r)).rightT) = _
      rw [hs.1]
      exact updateCreditSum_eq_self hv

end CreditBST

namespace CreditBST
open Tree

variable {κ δ γ : Type} [LinearOrder κ] [LinearOrderedCommRing γ]

set_option linter.unusedSectionVars false

theorem findNodeByCreditHelperS_frame : ∀ (t : Tree κ δ γ) (q : γ),
    (findNodeByCreditHelperS t q).2 = t
  | nil, q => rfl
  | node key dt cr s l r, q => by
      unfold findNodeByCreditHelperS
      dsimp only
      split_ifs with h1 h2 <;>
        simp [findNodeByCreditHelperS_frame l q,
          findNodeByCreditHelperS_frame r (q - getCreditSum l - cr)]

theorem findNodesByKeyHelperS_frame : ∀ (t : Tree κ δ γ) (k : κ),
    (findNodesByKeyHelperS t k).2 = t
  | nil, k => rfl
  | node key dt cr s l r, k => by
      unfold findNodesByKeyHelperS
      dsimp only
      split_ifs with h1 h2 <;>
        simp [findNodesByKeyHelperS_frame l k, findNodesByKeyHelperS_frame r k]

theorem findNodesByPrefixHelperS_frame {δ γ : Type} [LinearOrderedCommRing γ] :
    ∀ (t : Tree (List Char) δ γ) (p : List Char), (findNodesByPrefixHelperS t p).2 = t
  | nil, p => rfl
  | node key dt cr s l r, p => by
      unfold findNodesByPrefixHelperS
      dsimp only
      split_ifs with h1 h2 <;>
        simp [findNodesByPrefixHelperS_frame l p, findNodesByPrefixHelperS_frame r p]

end CreditBST

namespace CreditBST
open Tree

set_option linter.unusedSectionVars false

/-- Claim C1: for every sequence of public operations applied to an
initially empty structure, after every insert, delete and
updateCreditByKey call every node reachable from the root satisfies
`creditSum = credit + creditSum(left) + creditSum(right)` (an absent
child contributing 0) within an absolute tolerance of 1e-4. -/
theorem claim_C1_aggregate_invariant {κ δ : Type} [LinearOrder κ]
    (ops : List (Op κ δ ℚ)) : approxValidQ (applyOps ops) :=
  validS_imp_approxQ _ (validS_applyOps ops)

/-- Claim C2 (code bug): after `insert(2, 22, 10); insert(1, 11, 1)` the
total credit is 11 and the single node with key 1 carries credit 1, so
the claim requires `updateCreditByKey(1, 100)` to change the total by
`100 - 1` to 110; the code instead leaves `this.root` pointing at the
pre-rotation root, and `getTotalCredit()` returns 10. -/
theorem claim_C2_totalCredit_bug :
    getTotalCredit (applyOps [Op.ins 2 22 10, Op.ins 1 11 1] : Tree ℕ ℕ ℤ) = 11 ∧
    (findNodesByKey (applyOps [Op.ins 2 22 10, Op.ins 1 11 1] : Tree ℕ ℕ ℤ) 1).flatMap kdcL =
      [(1, 11, 1)] ∧
    getTotalCredit (updateCreditByKey
      (applyOps [Op.ins 2 22 10, Op.ins 1 11 1] : Tree ℕ ℕ ℤ) 1 100) = 10 ∧
    (11 + (100 - 1) : ℤ) = 110 ∧ (10 : ℤ) ≠ 110 := by
  refine ⟨rfl, rfl, rfl, by decide, by decide⟩

/-- Claim C3 counterexample: a structure satisfying the aggregate
invariant and the search ordering on which `delete` of the absent key 1
performs a rotation and returns a different tree, so delete on an
absent key is not a silent no-op for every structure. -/
theorem claim_C3_counterexample :
    validS (node 2 0 1 101 nil (node 3 0 100 100 nil nil) : Tree ℕ ℕ ℤ) ∧
    orderedT (node 2 0 1 101 nil (node 3 0 100 100 nil nil) : Tree ℕ ℕ ℤ) ∧
    (1 : ℕ) ∉ inorderKeys (node 2 0 1 101 nil (node 3 0 100 100 nil nil) : Tree ℕ ℕ ℤ) ∧
    deleteNode (node 2 0 1 101 nil (node 3 0 100 100 nil nil) : Tree ℕ ℕ ℤ) 1 ≠
      node 2 0 1 101 nil (node 3 0 100 100 nil nil) := by
  refine ⟨by decide, by decide, by decide, by decide⟩

/-- Claim C3 as amended: on a structure whose aggregates are correct and
at whose every node the rebalancing policy adopts no rotation, `delete`
and `updateCreditByKey` with an absent key leave the tree entirely
unchanged (and neither can fail: both are total functions). -/
theorem claim_C3_amended {κ δ γ : Type} [LinearOrder κ] [LinearOrderedCommRing γ]
    (t : Tree κ δ γ) (k : κ) (c : γ) (hv : validS t) (hs : stableS t)
    (hk : k ∉ inorderKeys t) :
    deleteNode t k = t ∧ updateCreditByKey t k c = t :=
  ⟨deleteNode_absent t k hv hs hk, updateCreditByKey_absent t k c hv hs hk⟩

/-- Claim C3 witness: the amended theorem applied to a concrete stable
valid tree and the absent key 3. -/
theorem claim_C3_witness :
    deleteNode (node 5 0 1 1 nil nil : Tree ℕ ℕ ℤ) 3 = node 5 0 1 1 nil nil ∧
    updateCreditByKey (node 5 0 1 1 nil nil : Tree ℕ ℕ ℤ) 3 7 = node 5 0 1 1 nil nil :=
  claim_C3_amended (node 5 0 1 1 nil nil) 3 7 (by decide) (by decide) (by decide)

/-- Claim C4 counterexample: a valid ordered tree holding a negative
credit; its total credit is 5, yet `findNodeByCredit 7` returns a node
rather than none, refuting the claim for arbitrary invariant-satisfying
trees. -/
theorem claim_C4_counterexample :
    validS (node 1 0 10 5 nil (node 2 0 (-5) (-5) nil nil) : Tree ℕ ℕ ℤ) ∧
    orderedT (node 1 0 10 5 nil (node 2 0 (-5) (-5) nil nil) : Tree ℕ ℕ ℤ) ∧
    getTotalCredit (node 1 0 10 5 nil (node 2 0 (-5) (-5) nil nil) : Tree ℕ ℕ ℤ) ≤ 7 ∧
    findNodeByCredit (node 1 0 10 5 nil (node 2 0 (-5) (-5) nil nil) : Tree ℕ ℕ ℤ) 7 ≠
      none := by
  refine ⟨by decide, by decide, by decide, by decide⟩

/-- Claim C4 as amended: restricted to trees whose credits are all
nonnegative (in addition to the aggregate invariant and the ordering):
for node `i` of the in-order (key-order) enumeration with running
prefix sums of credit, `findNodeByCredit t` returns node `i` for every
`t` in `[prefixSum(i), prefixSum(i) + credit(i))`, and returns none for
every `t ≥ getTotalCredit()`, including on the empty structure. -/
theorem claim_C4_amended {κ δ γ : Type} [LinearOrder κ] [LinearOrderedCommRing γ]
    (t : Tree κ δ γ) (hv : validS t) (hn : ∀ x ∈ creditList t, 0 ≤ x)
    (ho : orderedT t) :
    (∀ (i : ℕ) (hi : i < (inorderNodes t).length) (q : γ),
      prefixCredit t i ≤ q →
      q < prefixCredit t i + creditD ((inorderNodes t).get ⟨i, hi⟩) →
      findNodeByCredit t q = some ((inorderNodes t).get ⟨i, hi⟩)) ∧
    (∀ q : γ, getTotalCredit t ≤ q → findNodeByCredit t q = none) :=
  ⟨fun i hi q h1 h2 => findByCredit_found t hv hn i hi q h1 h2,
   fun q hq => findByCredit_out t hv hn q hq⟩

/-- Claim C4 witness: the amended theorem applied to a concrete
two-node tree, hitting the first node, the second node, and the
out-of-range case. -/
theorem claim_C4_witness :
    findNodeByCredit (node 2 0 5 8 (node 1 0 3 3 nil nil) nil : Tree ℕ ℕ ℤ) 1 =
      some ((inorderNodes (node 2 0 5 8 (node 1 0 3 3 nil nil) nil : Tree ℕ ℕ ℤ)).get
        ⟨0, by decide⟩) ∧
    findNodeByCredit (node 2 0 5 8 (node 1 0 3 3 nil nil) nil : Tree ℕ ℕ ℤ) 100 = none :=
  ⟨(claim_C4_amended (node 2 0 5 8 (node 1 0 3 3 nil nil) nil) (by decide) (by decide)
      (by decide)).1 0 (by decide) 1 (by decide) (by decide),
   (claim_C4_amended (node 2 0 5 8 (node 1 0 3 3 nil nil) nil) (by decide) (by decide)
      (by decide)).2 100 (by decide)⟩

/-- Claim C5: the rebalancing step equals the spec's description: the
four candidate costs computed by the stated formulas with +infinity for
a missing required node, scanned in the fixed order RR, RL, LL, LR,
adopting only strict improvements over the baseline 0 (ties keeping the
earliest candidate), applying no rotation when no cost is strictly
negative and otherwise the winning single or double rotation. -/
theorem claim_C5_balance_spec {κ δ γ : Type} [LinearOrder κ] [LinearOrderedCommRing γ]
    (t : Tree κ δ γ) : balance t = specBalance t :=
  balance_eq_specBalance t

end CreditBST

namespace CreditBST
open Tree

set_option linter.unusedSectionVars false

/-- Claim C6 counterexample: deleting key 1 at a two-children node whose
right subtree contains a duplicate of the successor key removes the
first key-match met by comparison descent (credit 7, data 300), not the
in-order successor node (credit 3, data 400); the claimed result list
differs from the actual one. -/
theorem claim_C6_counterexample :
    validS (node 1 100 5 16 (node 0 200 1 1 nil nil)
      (node 2 300 7 10 (node 2 400 3 3 nil nil) nil) : Tree ℕ ℕ ℤ) ∧
    orderedT (node 1 100 5 16 (node 0 200 1 1 nil nil)
      (node 2 300 7 10 (node 2 400 3 3 nil nil) nil) : Tree ℕ ℕ ℤ) ∧
    findMinNode (node 2 300 7 10 (node 2 400 3 3 nil nil) nil : Tree ℕ ℕ ℤ) =
      node 2 400 3 3 nil nil ∧
    inorderKDC (deleteNode (node 1 100 5 16 (node 0 200 1 1 nil nil)
      (node 2 300 7 10 (node 2 400 3 3 nil nil) nil) : Tree ℕ ℕ ℤ) 1) =
      [(0, 200, 1), (2, 400, 5), (2, 400, 3)] ∧
    inorderKDC (node 0 200 1 1 nil nil : Tree ℕ ℕ ℤ) ++ (2, 400, (5 : ℤ)) ::
      (inorderKDC (node 2 300 7 10 (node 2 400 3 3 nil nil) nil : Tree ℕ ℕ ℤ)).tail =
      [(0, 200, 1), (2, 400, 5), (2, 300, 7)] ∧
    ([(0, 200, 1), (2, 400, 5), (2, 400, 3)] : List (ℕ × ℕ × ℤ)) ≠
      [(0, 200, 1), (2, 400, 5), (2, 300, 7)] := by
  refine ⟨by decide, by decide, by decide, by decide, by decide, by decide⟩

/-- Claim C6 as amended: when `delete(k)` matches a node with both
children and the right subtree carries exactly one node with the
successor's key (in particular whenever keys are distinct), the
surviving node adopts the successor's key and data while keeping its
own credit `c`, and the node removed from the right subtree is the
successor (the head of the right subtree's in-order sequence), taking
its credit with it. -/
theorem claim_C6_amended {κ δ γ : Type} [LinearOrder κ] [LinearOrderedCommRing γ]
    (k : κ) (d : δ) (c s : γ) (l r : Tree κ δ γ) (mk : κ) (md : δ) (mc ms : γ)
    (ml mr : Tree κ δ γ) (hl : l ≠ nil)
    (ho : orderedT (node k d c s l r))
    (hm : findMinNode r = node mk md mc ms ml mr)
    (hcount : (inorderKeys r).count mk = 1) :
    inorderKDC (deleteNode (node k d c s l r) k) =
      inorderKDC l ++ (mk, md, c) :: (inorderKDC r).tail := by
  unfold deleteNode
  rw [if_neg (lt_irrefl k), if_neg (lt_irrefl k)]
  rcases l with _ | ⟨lk, ld, lc, ls, ll, lr⟩
  · exact absurd rfl hl
  · rcases r with _ | ⟨rk, rd, rc, rs, rl, rr⟩
    · cases hm
    · dsimp only
      rw [hm]
      rw [inorderKDC_balApply, inorderKDC_updateCreditSum]
      show inorderKDC (node lk ld lc ls ll lr) ++ [(mk, md, c)] ++
        inorderKDC (deleteNode (node rk rd rc rs rl rr) mk) = _
      rw [deleteMin_inorder (node rk rd rc rs rl rr) ho.2.2.2 hm hcount]
      simp

/-- Claim C6 witness: the amended theorem applied to a concrete tree
whose right subtree has a unique minimal key. -/
theorem claim_C6_witness :
    inorderKDC (deleteNode (node 1 10 5 15 (node 0 20 1 1 nil nil)
      (node 3 30 7 9 (node 2 40 2 2 nil nil) nil) : Tree ℕ ℕ ℤ) 1) =
      inorderKDC (node 0 20 1 1 nil nil : Tree ℕ ℕ ℤ) ++ (2, 40, (5 : ℤ)) ::
        (inorderKDC (node 3 30 7 9 (node 2 40 2 2 nil nil) nil : Tree ℕ ℕ ℤ)).tail :=
  claim_C6_amended 1 10 5 15 (node 0 20 1 1 nil nil)
    (node 3 30 7 9 (node 2 40 2 2 nil nil) nil) 2 40 2 2 nil nil
    (by decide) (by decide) (by decide) (by decide)

/-- Claim C7: on every structure reachable by public operations with
string keys, `findNodesByPrefix p` returns exactly the nodes whose key
starts with `p` (as a permutation of the in-order enumeration filtered
by the prefix test); the empty prefix (the default argument) returns
every node, and a prefix matching no key returns the empty sequence. -/
theorem claim_C7_prefix_query {δ γ : Type} [LinearOrderedCommRing γ]
    (ops : List (Op (List Char) δ γ)) (p : List Char) :
    List.Perm (findNodesByPrefix (applyOps ops) p)
      ((inorderNodes (applyOps ops)).filter (matchesPrefix p)) ∧
    List.Perm (findNodesByPrefix (applyOps ops) [])
      (inorderNodes (applyOps ops)) ∧
    ((∀ n ∈ inorderNodes (applyOps ops), matchesPrefix p n = false) →
      findNodesByPrefix (applyOps ops) p = []) := by
  have hord := orderedT_applyOps ops
  refine ⟨findNodesByPrefix_perm _ hord p, ?_, ?_⟩
  · have h1 := findNodesByPrefix_perm _ hord []
    rw [List.filter_eq_self.mpr ?_] at h1
    · exact h1
    · intro n hn
      have hnn := inorderNodes_nonnil (applyOps ops) n hn
      rcases n with _ | ⟨k2, d2, c2, s2, l2, r2⟩
      · simp [isNil] at hnn
      · show List.isPrefixOf [] k2 = true
        exact List.isPrefixOf_iff_prefix.mpr List.nil_prefix
  · intro hnone
    have h1 := findNodesByPrefix_perm _ hord p
    rw [List.filter_eq_nil_iff.mpr (fun a ha => by rw [hnone a ha]; simp)] at h1
    exact h1.eq_nil

/-- Claim C7 witness: on the spec's concrete scenario the prefix of all
keys returns a permutation of all three nodes and a prefix matching
nothing returns the empty sequence. -/
theorem claim_C7_witness :
    ((∀ n ∈ inorderNodes (applyOps [Op.ins ['u','s','e','r','1'] 1 10, Op.ins ['u','s','e','r','2'] 2 20,
        Op.ins ['u','s','e','r','3'] 3 15] : Tree (List Char) ℕ ℤ), matchesPrefix ['z','z','z'] n = false) →
      findNodesByPrefix (applyOps [Op.ins ['u','s','e','r','1'] 1 10, Op.ins ['u','s','e','r','2'] 2 20,
        Op.ins ['u','s','e','r','3'] 3 15] : Tree (List Char) ℕ ℤ) ['z','z','z'] = []) ∧
    findNodesByPrefix (applyOps [Op.ins ['u','s','e','r','1'] 1 10, Op.ins ['u','s','e','r','2'] 2 20,
        Op.ins ['u','s','e','r','3'] 3 15] : Tree (List Char) ℕ ℤ) ['z','z','z'] = [] := by
  have h := (claim_C7_prefix_query ([Op.ins ['u','s','e','r','1'] 1 10, Op.ins ['u','s','e','r','2'] 2 20,
    Op.ins ['u','s','e','r','3'] 3 15] : List (Op (List Char) ℕ ℤ)) ['z','z','z']).2.2
  exact ⟨h, h (by decide)⟩

end CreditBST

namespace CreditBST
open Tree

set_option linter.unusedSectionVars false

/-- Claim C8: on every reachable structure not containing key `k`,
after `insert(k, d, c)` the call `findNodesByKey k` returns exactly one
node, and that node carries key `k`, data `d` and credit `c`. -/
theorem claim_C8_roundtrip {κ δ γ : Type} [LinearOrder κ] [LinearOrderedCommRing γ]
    (ops : List (Op κ δ γ)) (k : κ) (d : δ) (c : γ)
    (hk : k ∉ inorderKeys (applyOps ops)) :
    (findNodesByKey (insert (applyOps ops) k d c) k).length = 1 ∧
    (findNodesByKey (insert (applyOps ops) k d c) k).flatMap kdcL = [(k, d, c)] := by
  have hord : orderedT (applyOps ops) := orderedT_applyOps ops
  have hordI : orderedT (insertNode (applyOps ops) k d c) :=
    orderedT_insertNode (applyOps ops) k d c hord
  have hfil := findNodesByKeyHelper_eq_filter (insertNode (applyOps ops) k d c) k hordI
  have hperm := (inorderKDC_insertNode_perm (applyOps ops) k d c).filter
    (fun x => decide (x.1 = k))
  have hfilT : (inorderKDC (applyOps ops)).filter (fun x => decide (x.1 = k)) = [] := by
    rw [List.filter_eq_nil_iff]
    intro a ha
    simp
    intro he
    exact hk (he ▸ mem_keys_of_mem_KDC ha)
  have hcons : List.filter (fun x => decide (x.1 = k)) ((k, d, c) :: inorderKDC (applyOps ops)) =
      [(k, d, c)] := by
    rw [List.filter_cons, if_pos (by simp)]
    rw [hfilT]
  rw [hcons] at hperm
  have hone : (inorderKDC (insertNode (applyOps ops) k d c)).filter
      (fun x => decide (x.1 = k)) = [(k, d, c)] := List.perm_singleton.mp hperm
  constructor
  · have hnn := findNodesByKeyHelper_nonnil (insertNode (applyOps ops) k d c) k
    have hlen := flatMap_kdcL_length _ hnn
    show (findNodesByKeyHelper (insertNode (applyOps ops) k d c) k).length = 1
    rw [← hlen, hfil, hone]
    rfl
  · show (findNodesByKeyHelper (insertNode (applyOps ops) k d c) k).flatMap kdcL = _
    rw [hfil, hone]

/-- Claim C8 witness: the round trip on a concrete one-insert history
with the fresh key 1. -/
theorem claim_C8_witness :
    (findNodesByKey (insert (applyOps [Op.ins 2 0 5] : Tree ℕ ℕ ℤ) 1 7 3) 1).length = 1 ∧
    (findNodesByKey (insert (applyOps [Op.ins 2 0 5] : Tree ℕ ℕ ℤ) 1 7 3) 1).flatMap kdcL =
      [(1, 7, 3)] :=
  claim_C8_roundtrip [Op.ins 2 0 5] 1 7 3 (by decide)

/-- Claim C9: the three queries never mutate the structure: running each
query in a state-threaded reading of the source (every recursive call
returning the subtree it leaves on the heap) returns the tree
unchanged, so every node's key, data, credit, creditSum and child
links, and the root pointer, are as before. -/
theorem claim_C9_queries_no_mutation {κ δ γ : Type} [LinearOrder κ]
    [LinearOrderedCommRing γ] :
    (∀ (t : Tree κ δ γ) (q : γ), (findNodeByCreditHelperS t q).2 = t) ∧
    (∀ (t : Tree κ δ γ) (k : κ), (findNodesByKeyHelperS t k).2 = t) ∧
    (∀ (t : Tree (List Char) δ γ) (p : List Char), (findNodesByPrefixHelperS t p).2 = t) :=
  ⟨fun t q => findNodeByCreditHelperS_frame t q,
   fun t k => findNodesByKeyHelperS_frame t k,
   fun t p => findNodesByPrefixHelperS_frame t p⟩

/-- Claim C10: every sequence of public mutators keeps the in-order key
sequence non-decreasing, and each rotation primitive (applied where the
source applies it, with the pivot child present) preserves both the
in-order sequence of node field triples and the node multiset. -/
theorem claim_C10_search_order {κ δ γ : Type} [LinearOrder κ] [LinearOrderedCommRing γ] :
    (∀ ops : List (Op κ δ γ), (inorderKeys (applyOps ops)).Sorted (· ≤ ·)) ∧
    (∀ t : Tree κ δ γ, t.rightT ≠ nil →
      inorderKDC (rotateLeft t) = inorderKDC t ∧
      (inorderKDC (rotateLeft t) : Multiset (κ × δ × γ)) = (inorderKDC t : Multiset (κ × δ × γ))) ∧
    (∀ t : Tree κ δ γ, t.leftT ≠ nil →
      inorderKDC (rotateRight t) = inorderKDC t ∧
      (inorderKDC (rotateRight t) : Multiset (κ × δ × γ)) = (inorderKDC t : Multiset (κ × δ × γ))) := by
  refine ⟨?_, ?_, ?_⟩
  · intro ops
    exact (orderedT_iff_sorted _).mp (orderedT_applyOps ops)
  · intro t _
    exact ⟨inorderKDC_rotateLeft t, by rw [inorderKDC_rotateLeft t]⟩
  · intro t _
    exact ⟨inorderKDC_rotateRight t, by rw [inorderKDC_rotateRight t]⟩

/-- Claim C10 witness: the rotation clauses applied to concrete trees
with the pivot child present. -/
theorem claim_C10_witness :
    (inorderKDC (rotateLeft (node 1 0 1 3 nil (node 2 0 2 2 nil nil) : Tree ℕ ℕ ℤ)) =
      inorderKDC (node 1 0 1 3 nil (node 2 0 2 2 nil nil) : Tree ℕ ℕ ℤ) ∧
      (inorderKDC (rotateLeft (node 1 0 1 3 nil (node 2 0 2 2 nil nil) : Tree ℕ ℕ ℤ)) :
        Multiset (ℕ × ℕ × ℤ)) =
        (inorderKDC (node 1 0 1 3 nil (node 2 0 2 2 nil nil) : Tree ℕ ℕ ℤ) :
          Multiset (ℕ × ℕ × ℤ))) ∧
    (inorderKDC (rotateRight (node 2 0 2 3 (node 1 0 1 1 nil nil) nil : Tree ℕ ℕ ℤ)) =
      inorderKDC (node 2 0 2 3 (node 1 0 1 1 nil nil) nil : Tree ℕ ℕ ℤ) ∧
      (inorderKDC (rotateRight (node 2 0 2 3 (node 1 0 1 1 nil nil) nil : Tree ℕ ℕ ℤ)) :
        Multiset (ℕ × ℕ × ℤ)) =
        (inorderKDC (node 2 0 2 3 (node 1 0 1 1 nil nil) nil : Tree ℕ ℕ ℤ) :
          Multiset (ℕ × ℕ × ℤ))) :=
  ⟨claim_C10_search_order.2.1 (node 1 0 1 3 nil (node 2 0 2 2 nil nil)) (by decide),
   claim_C10_search_order.2.2 (node 2 0 2 3 (node 1 0 1 1 nil nil) nil) (by decide)⟩

end CreditBST
